import Mathlib

/-!
Verification development for the `listall` directory-listing tool
(`src/listall.py`).  The traversal-and-rendering pipeline is embedded
shallowly:

* Absolute filesystem paths are modelled structurally (`AbsPath`: a drive
  prefix plus a list of name segments) and rendered to strings exactly where
  the source manipulates strings.  The model follows the Windows (`ntpath`)
  flavour of `os.path` — separator `'\'`, a real `splitdrive`, case-folding
  `normcase` — because that is the platform on which every feature of the
  source (drives, cross-root checks, both slash decorations) is live.
* The filesystem itself is a rose tree (`FSEntry`); `os.listdir` returns the
  children in tree order, `os.path.getmtime` returns the stored `mtime`.
  Directory-listing failures (the `except OSError` branch) are not modelled:
  every directory in the tree is readable.
* Python dictionaries are modelled as insertion-ordered association lists
  with the exact `setdefault` / assignment / `extend` semantics used by the
  source.
* `str.lower` is modelled as ASCII lowercasing, and `fnmatch.fnmatch`'s
  `normcase` likewise; the claims under study do not depend on non-ASCII
  case folding.
-/

namespace Listall

/-- ASCII lowercasing of one character. -/
def lowerChar (c : Char) : Char :=
  if 'A' ≤ c ∧ c ≤ 'Z' then Char.ofNat (c.toNat + 32) else c

/-- ASCII lowercasing, modelling Python `str.lower()` on the ASCII range. -/
def strLower (s : String) : String := String.mk (s.data.map lowerChar)

/-! ## Glob matching (`fnmatch.fnmatch`, used by `is_excluded`,
`src/listall.py` lines 219-221) -/

/-- Match a character against the parsed body of a `[...]` character set,
supporting `a-z` ranges; a trailing `-` is literal (as in `fnmatch`). -/
def matchSetChars : List Char → Char → Bool
  | [], _ => false
  | a :: '-' :: b :: rest, c =>
      if a ≤ c ∧ c ≤ b then true else matchSetChars rest c
  | a :: rest, c => if a = c then true else matchSetChars rest c

/-- Scan forward to the closing `]` of a character set, returning the body
and the remainder of the pattern; `none` when the set is unterminated. -/
def findClose : List Char → Option (List Char × List Char)
  | [] => none
  | c :: t =>
      if c = ']' then some ([], t)
      else (findClose t).map (fun br => (c :: br.1, br.2))

/-- Split the pattern after a `[` into (negated?, set body, rest of
pattern), following `fnmatch.translate`: a leading `!` negates, a `]`
directly after `[` or `[!` is a literal member of the set. -/
def splitBracket (ps : List Char) : Option (Bool × List Char × List Char) :=
  match ps with
  | '!' :: ']' :: t => (findClose t).map (fun br => (true, ']' :: br.1, br.2))
  | '!' :: t => (findClose t).map (fun br => (true, br.1, br.2))
  | ']' :: t => (findClose t).map (fun br => (false, ']' :: br.1, br.2))
  | t => (findClose t).map (fun br => (false, br.1, br.2))

theorem findClose_length {l body rest : List Char}
    (h : findClose l = some (body, rest)) : rest.length < l.length := by
  induction l generalizing body rest with
  | nil => simp [findClose] at h
  | cons c t ih =>
    rw [findClose] at h
    split at h
    · simp only [Option.some.injEq, Prod.mk.injEq] at h
      obtain ⟨_, h2⟩ := h
      subst h2
      simp
    · simp only [Option.map_eq_some'] at h
      obtain ⟨⟨b1, r1⟩, hfc, heq⟩ := h
      cases heq
      have := ih hfc
      simp only [List.length_cons]
      omega

theorem splitBracket_length {ps : List Char} {neg : Bool}
    {body rest : List Char}
    (h : splitBracket ps = some (neg, body, rest)) :
    rest.length ≤ ps.length := by
  unfold splitBracket at h
  split at h <;>
    (simp only [Option.map_eq_some'] at h;
     obtain ⟨⟨b1, r1⟩, hfc, heq⟩ := h;
     cases heq;
     have := findClose_length hfc;
     simp_all; omega)

/-- The recursive glob matcher behind `fnmatch.fnmatch`: `*` matches any
(possibly empty) run, `?` any single character, `[...]`/`[!...]` a character
set, an unterminated `[` is a literal, everything else is literal. -/
def globMatch : List Char → List Char → Bool
  | [], s => s.isEmpty
  | '*' :: ps, [] => globMatch ps []
  | '*' :: ps, c :: cs => globMatch ps (c :: cs) || globMatch ('*' :: ps) cs
  | '?' :: ps, _ :: cs => globMatch ps cs
  | '[' :: ps, c :: cs =>
      match h : splitBracket ps with
      | some (neg, body, rest) =>
          (matchSetChars body c != neg) && globMatch rest cs
      | none => (c = '[') && globMatch ps cs
  | p :: ps, c :: cs => (p = c) && globMatch ps cs
  | _ :: _, [] => false
termination_by p s => p.length * 2 + s.length
decreasing_by
  all_goals simp_wf
  all_goals try omega
  have := splitBracket_length h
  omega

/-- `fnmatch.fnmatch(name, pat)`: both sides are `normcase`d (lowercased on
Windows) and matched by the glob matcher. -/
def fnmatch (name pat : String) : Bool :=
  globMatch (strLower pat).data (strLower name).data

/-! ## Paths

An absolute, normalized path: a drive prefix (`"C:"`, or `""`) plus the list
of name segments. `pathToString` is the string this path denotes; the walker
builds its paths with `os.path.join(root, entry)` = `joinSeg`, so they are
absolute and normalized by construction, making `os.path.abspath` the
identity on them. -/

structure AbsPath where
  drive : String
  segs : List String
deriving DecidableEq

/-- The path separator (`os.sep` on Windows). -/
def sepS : String := "\x5c"

/-- `os.path.join(root, name)` for a plain entry name. -/
def joinSeg (p : AbsPath) (name : String) : AbsPath :=
  { p with segs := p.segs ++ [name] }

/-- `os.path.basename` of an absolute path: its last segment (empty for a
bare drive root). -/
def pathBasename (p : AbsPath) : String := p.segs.getLast?.getD ""

/-- Join string parts with the path separator (`sep.join`-style). -/
def joinSepStr : List String → String
  | [] => ""
  | [x] => x
  | x :: y :: t => x ++ sepS ++ joinSepStr (y :: t)

/-- Render an absolute path to its string form, e.g. `"C:\a\b"`. -/
def pathToString (p : AbsPath) : String :=
  p.drive ++ sepS ++ joinSepStr p.segs

/-- `os.path.basename(path)` for a string that may mix separators
(`ntpath` splits on both `\` and `/`): the suffix after the last
separator. -/
def baseNameStr (s : String) : String :=
  ((s.data.foldl (fun acc c =>
      if c = '\x5c' ∨ c = '/' then [] else acc ++ [c]) []).asString)

/-- Length of the longest common prefix of two segment lists, compared
case-insensitively as `ntpath.relpath` does via `normcase`. -/
def commonPrefixLen : List String → List String → Nat
  | a :: as, b :: bs =>
      if strLower a = strLower b then commonPrefixLen as bs + 1 else 0
  | _, _ => 0

/-- `os.path.relpath(p, start)` for two same-drive absolute paths: walk up
with `..` past the non-shared part of `start`, then down into `p`;
`"."` when the paths coincide. -/
def relpathStr (p start : AbsPath) : String :=
  let i := commonPrefixLen p.segs start.segs
  let l := List.replicate (start.segs.length - i) ".." ++ p.segs.drop i
  if l = [] then "." else joinSepStr l

/-- Does the string start with a path separator (either direction)? -/
def strHeadIsSep (s : String) : Bool :=
  match s.data with
  | [] => false
  | c :: _ => c = '\x5c' ∨ c = '/'

/-- Does the string end with a path separator (either direction)? -/
def strLastIsSep (s : String) : Bool :=
  match s.data.getLast? with
  | some c => c = '\x5c' ∨ c = '/'
  | none => false

/-- `ntpath.join(a, b)` for the label/relative-path combinations the source
builds: `b` wins if it is rooted, otherwise it is appended with a
separator. -/
def ntJoin (a b : String) : String :=
  if strHeadIsSep b then b
  else if a = "" then b
  else if strLastIsSep a then a ++ b
  else a ++ sepS ++ b

/-! ## Sort engine (`numerical_sort`, `windows_explorer_sort`,
`sort_files`, `src/listall.py` lines 129-167)

Python's `sorted(files, key=...)` is a stable ascending sort; it is
modelled by a stable insertion sort over an explicit key type `SKey`
(Python compares the `(int, str)` tuples / strings / floats that the key
functions produce).  `os.path.getmtime(x)` is modelled by pairing each
path with its stored modification time, so `sort_files` acts on
`AbsPath × Int` pairs. -/

/-- First run of decimal digits in a string, as a number (`re.findall`
followed by `int(parts[0])`); `0` when there is none.  The accumulator
builds the value of the current digit run. -/
def takeDigitsVal : List Char → Nat → Nat
  | c :: cs, acc =>
      if c.isDigit then takeDigitsVal cs (acc * 10 + (c.toNat - 48)) else acc
  | [], acc => acc

/-- Value of the first digit run of a character list, `0` if none. -/
def firstNumVal : List Char → Int
  | [] => 0
  | c :: cs => if c.isDigit then (takeDigitsVal (c :: cs) 0 : Int)
               else firstNumVal cs

/-- `numerical_sort(value)`: `(first number in the string, the string)`. -/
def numerical_sort (value : String) : Int × String :=
  (firstNumVal value.data, value)

/-- Comparison keys as Python values: an `(int, str)` tuple, a string, or a
modification time. -/
inductive SKey
  | num (n : Int) (s : String)
  | str (s : String)
  | date (t : Int)

/-- Python `<` on strings: lexicographic comparison by code point. -/
def charListLt : List Char → List Char → Bool
  | [], [] => false
  | [], _ :: _ => true
  | _ :: _, [] => false
  | a :: as, b :: bs =>
      if a.toNat < b.toNat then true
      else if b.toNat < a.toNat then false
      else charListLt as bs

/-- Python `<=` on strings (lexicographic by code point). -/
def strLeB (a b : String) : Bool := charListLt a.data b.data || decide (a = b)

/-- Rank used to make the key order total across constructors (keys of one
sort call always share a constructor). -/
def skeyRank : SKey → Nat
  | .num _ _ => 0
  | .str _ => 1
  | .date _ => 2

/-- Non-strict comparison of sort keys, matching Python tuple/string/number
comparison. -/
def skeyLe : SKey → SKey → Bool
  | .num a s, .num b t => decide (a < b) || (decide (a = b) && strLeB s t)
  | .str s, .str t => strLeB s t
  | .date a, .date b => decide (a ≤ b)
  | x, y => decide (skeyRank x ≤ skeyRank y)

/-- Insert `x` into `l` before the first element it is `le`-below; placing
`x` before later ties is what makes the sort stable. -/
def orderedInsertB (le : α → α → Bool) (x : α) : List α → List α
  | [] => [x]
  | y :: l => if le x y then x :: y :: l else y :: orderedInsertB le x l

/-- Stable insertion sort, extensionally equal to Python's stable
`sorted`. -/
def stableSortBy (le : α → α → Bool) : List α → List α
  | [] => []
  | x :: l => orderedInsertB le x (stableSortBy le l)

theorem orderedInsertB_perm (le : α → α → Bool) (x : α) (l : List α) :
    (orderedInsertB le x l).Perm (x :: l) := by
  induction l with
  | nil => exact List.Perm.refl _
  | cons y t ih =>
    rw [orderedInsertB]
    split
    · exact List.Perm.refl _
    · exact (List.Perm.cons y ih).trans (List.Perm.swap x y t)

theorem stableSortBy_perm (le : α → α → Bool) (l : List α) :
    (stableSortBy le l).Perm l := by
  induction l with
  | nil => exact List.Perm.refl _
  | cons x t ih =>
    rw [stableSortBy]
    exact (orderedInsertB_perm le x _).trans (List.Perm.cons x ih)

/-- The six sort modes of `--sort`. -/
inductive SortMode
  | sequence | isequence | winsequence | nameMode | iname | date
deriving DecidableEq

/-- `windows_explorer_sort(value)`: the lowercased basename
(`src/listall.py` line 149). -/
def windows_explorer_sort (p : AbsPath) : String :=
  strLower (pathBasename p)

/-- The comparison key of `sort_map` for one path (paired with its
modification time, standing in for `os.path.getmtime`). -/
def fileKey (mode : SortMode) (p : AbsPath) (mt : Int) : SKey :=
  match mode with
  | .sequence => SKey.num (numerical_sort (pathBasename p)).1
      (numerical_sort (pathBasename p)).2
  | .isequence => SKey.num (numerical_sort (strLower (pathBasename p))).1
      (numerical_sort (strLower (pathBasename p))).2
  | .winsequence => SKey.str (windows_explorer_sort p)
  | .nameMode => SKey.str (pathBasename p)
  | .iname => SKey.str (strLower (pathBasename p))
  | .date => SKey.date mt

/-- `sort_files(files, sort_mode)` (`src/listall.py` lines 151-167): stable
sort of paths by the mode's key. -/
def sort_files (files : List (AbsPath × Int)) (mode : SortMode) :
    List (AbsPath × Int) :=
  stableSortBy (fun a b => skeyLe (fileKey mode a.1 a.2) (fileKey mode b.1 b.2))
    files

/-! ## Configuration enumerations -/

/-- `--path-style` values. -/
inductive PathStyle
  | full | rel | relBase | filesOnly
deriving DecidableEq

/-- `--collect` values. -/
inductive Collect
  | all | dirsOnly | dirs1stLastFile | filesOnly
deriving DecidableEq

/-- Decoration set (`--decorator`), modelled as membership flags. -/
structure Decorations where
  unix : Bool
  windows : Bool
  relLeader : Bool
  noLeader : Bool
deriving DecidableEq

/-! ## Decoration transform (`apply_decorations`,
`src/listall.py` lines 169-186)

`str.lstrip(chars)` removes every leading character drawn from the given
set, which is `String.dropWhile` over that character class. -/

/-- `path.lstrip(".\\").lstrip("./")`: the leader-stripping used by both
`no-leader` and `rel-leader`; `lstrip(chars)` removes every leading
character drawn from its argument set. -/
def lstripLeader (s : String) : String :=
  String.mk ((s.data.dropWhile (fun c => c = '.' ∨ c = '\x5c')).dropWhile
    (fun c => c = '.' ∨ c = '/'))

/-- `str.replace(a, b)` for single characters (a character-wise map). -/
def replaceChar (a b : Char) (s : String) : String :=
  String.mk (s.data.map (fun c => if c = a then b else c))

/-- `apply_decorations(path, decorations)`: leader normalization, then
slash direction. -/
def apply_decorations (path : String) (d : Decorations) : String :=
  let p1 :=
    if d.noLeader then lstripLeader path
    else if d.relLeader then
      (if d.windows then ".\x5c" else "./") ++ lstripLeader path
    else path
  if d.unix then replaceChar '\x5c' '/' p1
  else if d.windows then replaceChar '/' '\x5c' p1
  else p1

/-! ## Filesystem model and the traversal walker
(`on_visit_directory`, `walk_directories`, `src/listall.py` lines 189-283) -/

/-- A filesystem entry: a file or a directory, each carrying the
modification time `os.path.getmtime` would report. `os.listdir` returns
the children in list order. -/
inductive FSEntry
  | file (name : String) (mtime : Int)
  | dir (name : String) (mtime : Int) (children : List FSEntry)

/-- The walker's visit decisions (`'descend'`, `'skip'`, `'partial'`). -/
inductive VisitAction
  | descend | skip | truncated
deriving DecidableEq

/-- The flat map the walker accumulates: `{abs_dir: [abs_file, ...]}` as an
insertion-ordered association list. -/
abbrev Collected := List (AbsPath × List AbsPath)

/-- Keys of an association-list dictionary. -/
def dictKeys (d : List (κ × β)) : List κ := d.map (fun e => e.1)

/-- Python `k in d`. -/
def dictContains [DecidableEq κ] (d : List (κ × β)) (k : κ) : Bool :=
  d.any (fun e => decide (e.1 = k))

/-- Python `d[k]` (with a default for the absent case, which the source
never hits on the lookups it guards). -/
def dictGet [DecidableEq κ] [Inhabited β] (d : List (κ × β)) (k : κ) : β :=
  match d with
  | [] => default
  | e :: t => if e.1 = k then e.2 else dictGet t k

/-- Python `d[k] = v`: overwrite in place when present (keeping the key's
position), append otherwise. -/
def dictSet [DecidableEq κ] (d : List (κ × β)) (k : κ) (v : β) :
    List (κ × β) :=
  match d with
  | [] => [(k, v)]
  | e :: t => if e.1 = k then (k, v) :: t else e :: dictSet t k v

/-- Python `d.setdefault(k, [])` used for its side effect: insert an empty
list at the end when the key is absent. -/
def dictSetdefault [DecidableEq κ] (d : List (κ × List β)) (k : κ) :
    List (κ × List β) :=
  if dictContains d k then d else d ++ [(k, [])]

/-- Python `d.setdefault(k, []).extend(v)`. -/
def dictExtend [DecidableEq κ] (d : List (κ × List β)) (k : κ)
    (v : List β) : List (κ × List β) :=
  match d with
  | [] => [(k, v)]
  | e :: t => if e.1 = k then (e.1, e.2 ++ v) :: t else e :: dictExtend t k v

/-- Walker configuration: the parameters captured by `recurse_dir`'s
closure. -/
structure WalkCfg where
  exclude_patterns : List String
  sort_by : SortMode
  collect : Collect
  max_depth : Option Int
  prune_large_dirs : Option Int

/-- `is_excluded(p)` (`src/listall.py` lines 219-221): does the basename
match any exclusion pattern? -/
def is_excluded (pats : List String) (p : AbsPath) : Bool :=
  pats.any (fun pat => fnmatch (pathBasename p) pat)

/-- `on_visit_directory` (`src/listall.py` lines 189-199): `skip` at or
below the depth cutoff, `partial` (`truncated`) at or above the prune
threshold, `descend` otherwise. -/
def on_visit_directory (root : AbsPath) (dirs files : List String)
    (depth : Nat) (max_depth prune_large_dirs : Option Int) : VisitAction :=
  match max_depth, prune_large_dirs with
  | some md, some t =>
      if (depth : Int) ≥ md then .skip
      else if (files.length : Int) ≥ t then .truncated else .descend
  | some md, none => if (depth : Int) ≥ md then .skip else .descend
  | none, some t =>
      if (files.length : Int) ≥ t then .truncated else .descend
  | none, none => .descend

/-- The non-excluded file children of a directory, as
`(absolute path, mtime)` pairs in `os.listdir` order. -/
def childFiles (pats : List String) (root : AbsPath)
    (entries : List FSEntry) : List (AbsPath × Int) :=
  entries.filterMap (fun e =>
    match e with
    | .file n mt =>
        if is_excluded pats (joinSeg root n) then none
        else some (joinSeg root n, mt)
    | .dir _ _ _ => none)

/-- The non-excluded directory children, paired with their subtrees. -/
def childDirs (pats : List String) (root : AbsPath)
    (entries : List FSEntry) : List ((AbsPath × Int) × List FSEntry) :=
  entries.filterMap (fun e =>
    match e with
    | .file _ _ => none
    | .dir n mt cs =>
        if is_excluded pats (joinSeg root n) then none
        else some ((joinSeg root n, mt), cs))

/-- Sorting of the subdirectory list: the source calls
`sort_files(subdirs, sort_by)` on the paths; the attached subtrees ride
along with their path's position. -/
def sortDirs (mode : SortMode)
    (l : List ((AbsPath × Int) × List FSEntry)) :
    List ((AbsPath × Int) × List FSEntry) :=
  stableSortBy
    (fun a b => skeyLe (fileKey mode a.1.1 a.1.2) (fileKey mode b.1.1 b.1.2)) l

/-- `[files[0], files[-1]] if len(files) > 1 else files`. -/
def firstLast (l : List α) : List α :=
  if l.length ≤ 1 then l else l.take 1 ++ l.drop (l.length - 1)

theorem mem_childDirs_sizeOf {pats : List String} {root : AbsPath}
    {entries : List FSEntry} {x : (AbsPath × Int) × List FSEntry}
    (h : x ∈ childDirs pats root entries) : sizeOf x.2 < sizeOf entries := by
  rw [childDirs, List.mem_filterMap] at h
  obtain ⟨e, he, hfe⟩ := h
  have hlt : sizeOf e < sizeOf entries := List.sizeOf_lt_of_mem he
  cases e with
  | file n mt => simp at hfe
  | dir n mt cs =>
    simp only at hfe
    split at hfe
    · cases hfe
    · cases hfe
      simp only
      have hsz : sizeOf cs < sizeOf (FSEntry.dir n mt cs) := by
        simp [FSEntry.dir.sizeOf_spec]
      omega

/-- `recurse_dir(root, depth)` (`src/listall.py` lines 223-280), with the
accumulating dictionary threaded explicitly: list and partition the
children, sort both lists, take the visit decision, record this
directory's entry according to the collection strategy, and descend into
the (possibly emptied) subdirectory list unless skipping. -/
def recurse_dir (cfg : WalkCfg) (entries : List FSEntry) (root : AbsPath)
    (depth : Nat) (acc : Collected) : Collected :=
  let subdirs := sortDirs cfg.sort_by (childDirs cfg.exclude_patterns root entries)
  let files := sort_files (childFiles cfg.exclude_patterns root entries) cfg.sort_by
  let action := on_visit_directory root
    (subdirs.map (fun d => pathBasename d.1.1))
    (files.map (fun f => pathBasename f.1))
    depth cfg.max_depth cfg.prune_large_dirs
  let acc1 := if cfg.collect ≠ Collect.filesOnly then dictSetdefault acc root
              else acc
  let files2 := if action = VisitAction.truncated then firstLast files else files
  let subdirs2 := if action = VisitAction.truncated then [] else subdirs
  let stored := files2.map (fun f => f.1)
  let acc2 :=
    match cfg.collect with
    | .dirsOnly => acc1
    | .dirs1stLastFile => dictSet acc1 root (firstLast stored)
    | .filesOnly => dictExtend acc1 root stored
    | .all => dictSet acc1 root stored
  if action = VisitAction.skip then acc2
  else
    subdirs2.attach.foldl
      (fun a sd => recurse_dir cfg sd.1.2 sd.1.1.1 (depth + 1) a) acc2
termination_by sizeOf entries
decreasing_by
  simp_wf
  have h1 := sd.2
  unfold_let subdirs2 subdirs at h1
  split at h1
  · cases h1
  · exact mem_childDirs_sizeOf (((stableSortBy_perm _ _).mem_iff).1 h1)

/-- `walk_directories` (`src/listall.py` lines 201-283): run the recursion
from the start path at depth 0 with an empty dictionary.  The
`collect_limit` / `collect_limit_min` parameters are accepted and unused,
as in the source. -/
def walk_directories (fs : List FSEntry) (start_path_abs : AbsPath)
    (exclude_patterns : List String) (sort_by : SortMode) (collect : Collect)
    (collect_limit collect_limit_min : Option Int)
    (max_depth prune_large_dirs : Option Int) : Collected :=
  recurse_dir
    { exclude_patterns := exclude_patterns, sort_by := sort_by,
      collect := collect, max_depth := max_depth,
      prune_large_dirs := prune_large_dirs }
    fs start_path_abs 0 []

/-! ## Path adjuster (`adjust_paths`, `src/listall.py` lines 322-427) -/

/-- The cross-drive error message, naming the offending absolute path. -/
def crossMsg (p : AbsPath) : String :=
  "Cannot create relative path across drives: " ++ pathToString p

/-- The `splitdrive(..)[0].lower()` comparison. -/
def sameDrive (p start : AbsPath) : Bool :=
  strLower p.drive = strLower start.drive

/-- The label used by `rel-base`: the user label when truthy (non-empty),
else the basename of the start path. -/
def labelOf (base_label : Option String) (start : AbsPath) : String :=
  match base_label with
  | some l => if l = "" then pathBasename start else l
  | none => pathBasename start

/-- Conversion of one file path (`src/listall.py` lines 345-382): strict
cross-drive check for `rel`/`rel-base`, then the per-style rewrite, falling
back to the absolute path off-drive when not strict. -/
def adjustFilePath (start : AbsPath) (style : PathStyle) (decs : Decorations)
    (strict_rel : Bool) (base_label : Option String) (f : AbsPath) :
    Except String String :=
  if strict_rel ∧ (style = PathStyle.rel ∨ style = PathStyle.relBase) ∧
      ¬ sameDrive f start then
    Except.error (crossMsg f)
  else
    Except.ok (match style with
      | .filesOnly => pathBasename f
      | .rel =>
          if sameDrive f start then
            apply_decorations (relpathStr f start) decs
          else pathToString f
      | .relBase =>
          if sameDrive f start then
            apply_decorations (ntJoin (labelOf base_label start)
              (relpathStr f start)) decs
          else pathToString f
      | .full => pathToString f)

/-- Conversion of one directory key (`src/listall.py` lines 384-424):
`files-only` keeps the absolute key; `rel`/`rel-base` check cross-drive
when strict, and `rel-base` collapses the start directory itself to the
bare (decorated) label. -/
def adjustDirKey (start : AbsPath) (style : PathStyle) (decs : Decorations)
    (strict_rel : Bool) (base_label : Option String) (dirAbs : AbsPath) :
    Except String String :=
  match style with
  | .filesOnly => Except.ok (pathToString dirAbs)
  | _ =>
    if strict_rel ∧ (style = PathStyle.rel ∨ style = PathStyle.relBase) ∧
        ¬ sameDrive dirAbs start then
      Except.error (crossMsg dirAbs)
    else
      Except.ok (match style with
        | .rel =>
            if sameDrive dirAbs start then
              apply_decorations (relpathStr dirAbs start) decs
            else pathToString dirAbs
        | .relBase =>
            if sameDrive dirAbs start then
              if relpathStr dirAbs start = "." then
                apply_decorations (labelOf base_label start) decs
              else
                apply_decorations (ntJoin (labelOf base_label start)
                  (relpathStr dirAbs start)) decs
            else pathToString dirAbs
        | _ => pathToString dirAbs)

/-- The `for f in file_list` loop of `adjust_paths`: convert each file in
order, stopping at the first cross-drive error. -/
def adjustFilesLoop (start : AbsPath) (style : PathStyle) (decs : Decorations)
    (strict_rel : Bool) (base_label : Option String) :
    List AbsPath → Except String (List String)
  | [] => Except.ok []
  | f :: t =>
    match adjustFilePath start style decs strict_rel base_label f with
    | Except.error e => Except.error e
    | Except.ok s =>
      match adjustFilesLoop start style decs strict_rel base_label t with
      | Except.error e => Except.error e
      | Except.ok rest => Except.ok (s :: rest)

/-- One iteration of the `adjust_paths` loop body: all file paths of the
entry (in order, first failure wins), then the directory key. -/
def adjustEntry (start : AbsPath) (style : PathStyle) (decs : Decorations)
    (strict_rel : Bool) (base_label : Option String)
    (dirAbs : AbsPath) (fl : List AbsPath) :
    Except String (String × List String) :=
  match adjustFilesLoop start style decs strict_rel base_label fl with
  | Except.error e => Except.error e
  | Except.ok files =>
    match adjustDirKey start style decs strict_rel base_label dirAbs with
    | Except.error e => Except.error e
    | Except.ok key => Except.ok (key, files)

/-- The `adjust_paths` loop over the collected dictionary, accumulating the
adjusted dictionary (`adjusted[dir_key] = adjusted_files`). -/
def adjustLoop (start : AbsPath) (style : PathStyle) (decs : Decorations)
    (strict_rel : Bool) (base_label : Option String) :
    Collected → List (String × List String) →
    Except String (List (String × List String))
  | [], acc => Except.ok acc
  | (d, fl) :: t, acc =>
    match adjustEntry start style decs strict_rel base_label d fl with
    | Except.error e => Except.error e
    | Except.ok (k, v) => adjustLoop start style decs strict_rel base_label t
        (dictSet acc k v)

/-- `adjust_paths` (`src/listall.py` lines 322-427).  The `collect`
parameter is accepted and unused, as in the source. -/
def adjust_paths (collected_dict : Collected) (start_path_abs : AbsPath)
    (path_style : PathStyle) (decorations : Decorations) (collect : Collect)
    (strict_rel : Bool) (base_label : Option String) :
    Except String (List (String × List String)) :=
  adjustLoop start_path_abs path_style decorations strict_rel base_label
    collected_dict []

/-! ## Secondary truncation and `collect_files`
(`src/listall.py` lines 285-320) -/

/-- Python `x or d` for an optional integer (both `None` and `0` are
falsy). -/
def pyOrInt (o : Option Int) (d : Int) : Int :=
  match o with
  | none => d
  | some v => if v = 0 then d else v

/-- The post-walk truncation pass of `collect_files` (lines 309-316): only
when `collect == "all"` and `collect_limit` is truthy, replace each list
longer than the limit by its first `half` and last `half` elements, with
`half = max((collect_limit_min or 2)//2, 1)`. -/
def truncateLimit (collect : Collect) (collect_limit collect_limit_min : Option Int)
    (raw : Collected) : Collected :=
  match collect_limit with
  | none => raw
  | some lv =>
    if collect = Collect.all ∧ lv ≠ 0 then
      raw.map (fun e =>
        if (e.2.length : Int) > lv then
          let half := max ((pyOrInt collect_limit_min 2).fdiv 2) 1
          (e.1, e.2.take half.toNat ++ e.2.drop (e.2.length - half.toNat))
        else e)
    else raw

/-- `collect_files` (`src/listall.py` lines 285-320): walk, truncate under
`collect=all`, adjust. -/
def collect_files (fs : List FSEntry) (start_path_abs : AbsPath)
    (path_style : PathStyle) (collect : Collect) (sort_by : SortMode)
    (decorations : Decorations) (exclude_patterns : List String)
    (collect_limit collect_limit_min : Option Int) (strict_rel : Bool)
    (base_label : Option String) (max_depth prune_large_dirs : Option Int) :
    Except String (List (String × List String)) :=
  let raw := walk_directories fs start_path_abs exclude_patterns sort_by
    collect collect_limit collect_limit_min max_depth prune_large_dirs
  adjust_paths (truncateLimit collect collect_limit collect_limit_min raw)
    start_path_abs path_style decorations collect strict_rel base_label

/-! ## Tree builder (`build_directory_tree`, `src/listall.py`
lines 429-442) -/

/-- The nested-`defaultdict` tree: a node is its ordered children map. -/
inductive DTree
  | node (children : List (String × DTree))

/-- The children association list of a node. -/
def DTree.children : DTree → List (String × DTree)
  | .node cs => cs

/-- First value bound to a key in an association list. -/
def lookupChild (cs : List (String × DTree)) (p : String) : Option DTree :=
  match cs with
  | [] => none
  | (q, sub) :: t => if q = p then some sub else lookupChild t p

/-- Replace the (first) binding of a key, keeping its position. -/
def replaceChild (cs : List (String × DTree)) (p : String) (v : DTree) :
    List (String × DTree) :=
  match cs with
  | [] => []
  | (q, sub) :: t =>
      if q = p then (q, v) :: t else (q, sub) :: replaceChild t p v

/-- Walk/auto-vivify one key's segment chain into the tree
(`current = current[p]` over `defaultdict`): an existing child is reused in
place, a missing one is appended. -/
def treeInsertPath : DTree → List String → DTree
  | t, [] => t
  | .node cs, p :: rest =>
      match lookupChild cs p with
      | some sub => DTree.node (replaceChild cs p (treeInsertPath sub rest))
      | none => DTree.node (cs ++ [(p, treeInsertPath (DTree.node []) rest)])

/-- Split a character list at every occurrence of `c`, keeping empty
groups, as Python `str.split(sep)` does for a one-character separator. -/
def splitChars (c : Char) : List Char → List (List Char)
  | [] => [[]]
  | ch :: rest =>
    match splitChars c rest with
    | [] => [[]]
    | g :: gs => if ch = c then [] :: g :: gs else (ch :: g) :: gs

/-- `dkey.split(os.sep)`: split a string on the path separator. -/
def splitOnSep (s : String) : List String :=
  (splitChars '\x5c' s.data).map (fun l => String.mk l)

/-- `build_directory_tree(collected)`: split every non-empty key on the
path separator and insert the segment chain. -/
def build_directory_tree (collected : List (String × List String)) : DTree :=
  collected.foldl
    (fun t e => if e.1 = "" then t else treeInsertPath t (splitOnSep e.1))
    (DTree.node [])

/-! ## Renderer (`get_subdir_sort_key`, `format_collected_items`,
`src/listall.py` lines 444-587) -/

/-- `get_subdir_sort_key(name, sort_by)` (lines 444-471): the file sort key
on the bare segment name, with `date` falling back to plain name order. -/
def get_subdir_sort_key (name : String) (sort_by : SortMode) : SKey :=
  match sort_by with
  | .sequence => SKey.num (numerical_sort name).1 (numerical_sort name).2
  | .isequence => SKey.num (numerical_sort (strLower name)).1
      (numerical_sort (strLower name)).2
  | .winsequence => SKey.str (strLower name)
  | .nameMode => SKey.str name
  | .iname => SKey.str (strLower name)
  | .date => SKey.str name

/-- Output format (`--format`). -/
inductive FormatStyle
  | inline | summary
deriving DecidableEq

/-- The rendering configuration threaded through `format_directory`. -/
structure RenderCfg where
  collect : Collect
  decorations : Decorations
  path_style : PathStyle
  sort_by : SortMode
  indent_size : Int
  compact_braces : Bool

/-- `" " * (indent_size * level)`. -/
def indentStr (cfg : RenderCfg) (level : Nat) : String :=
  String.mk (List.replicate (cfg.indent_size * (level : Int)).toNat ' ')

/-- `indent + " " * indent_size` (the file-line indent). -/
def findentStr (cfg : RenderCfg) (level : Nat) : String :=
  indentStr cfg level ++ String.mk (List.replicate cfg.indent_size.toNat ' ')

/-- `lines[-1] += s`. -/
def appendToLast (lines : List String) (s : String) : List String :=
  match lines with
  | [] => []
  | l => l.dropLast ++ [l.getLast?.getD "" ++ s]

/-- `items.sort(key=lambda x: get_subdir_sort_key(x[0], sort_by))`. -/
def sortedItems (sort_by : SortMode) (cs : List (String × DTree)) :
    List (String × DTree) :=
  stableSortBy
    (fun a b => skeyLe (get_subdir_sort_key a.1 sort_by)
      (get_subdir_sort_key b.1 sort_by)) cs

theorem mem_children_sizeOf {t : DTree} {x : String × DTree}
    (h : x ∈ t.children) : sizeOf x.2 < sizeOf t := by
  cases t with
  | node cs =>
    simp only [DTree.children] at h
    have h1 : sizeOf x < sizeOf cs := List.sizeOf_lt_of_mem h
    have h2 : sizeOf x.2 < sizeOf x := by
      cases x with
      | mk a b => simp only [Prod.mk.sizeOf_spec]; omega
    simp only [DTree.node.sizeOf_spec]
    omega

/-- The decorated basename lines printed for the files registered under a
reconstructed path. -/
def fileLinesFor (cfg : RenderCfg) (fm : List (String × List String))
    (full_path : String) (level : Nat) : List String :=
  if dictContains fm full_path then
    (dictGet fm full_path).map
      (fun f => findentStr cfg level ++
        apply_decorations (baseNameStr f) cfg.decorations)
  else []

/-- `format_directory` (`src/listall.py` lines 494-572), producing the list
of output lines.  Each child of the node yields a self-contained block of
lines plus a flag saying whether a closing brace is due; the blocks are
then assembled, compacting the final closing brace onto the last line of
the last child when `compact_braces` is set.

The first argument only bounds the recursion depth; `format_collected_items`
invokes the renderer with one more than the total number of key segments in
the dictionary, which strictly exceeds the depth of the tree built from
those keys, so the `0` branch is never reached on those calls. -/
def format_directory (cfg : RenderCfg) (fm : List (String × List String)) :
    Nat → DTree → String → Nat → List String
  | 0, _, _, _ => []
  | fuel + 1, t, cur, level =>
    let ind := indentStr cfg level
    let items := sortedItems cfg.sort_by (DTree.children t)
    let blocks := items.map (fun it =>
      let name := it.1
      let sub := it.2
      let full_path := if cur = "" then name else ntJoin cur name
      let disp := if cfg.path_style = PathStyle.relBase then name
                  else apply_decorations name cfg.decorations
      match cfg.collect with
      | Collect.dirsOnly =>
          if (DTree.children sub).length ≠ 0 then
            ((ind ++ disp ++ ":\x7b") ::
              format_directory cfg fm fuel sub full_path (level + 1), true)
          else ([ind ++ disp], false)
      | Collect.filesOnly =>
          ((ind ++ "\x7b") :: (fileLinesFor cfg fm full_path level ++
            format_directory cfg fm fuel sub full_path (level + 1)), true)
      | Collect.dirs1stLastFile =>
          let has_sub := (DTree.children sub).length ≠ 0
          let openBrace := has_sub ∨ cur ≠ ""
          let headLine := if openBrace then ind ++ disp ++ ":\x7b"
                          else ind ++ disp
          let flLines :=
            if dictContains fm full_path then
              match dictGet fm full_path with
              | [] => []
              | f0 :: frest =>
                  (findentStr cfg level ++
                    apply_decorations (baseNameStr f0) cfg.decorations) ::
                  (if frest.length > 0 then
                    [findentStr cfg level ++ apply_decorations
                      (baseNameStr ((f0 :: frest).getLast?.getD ""))
                      cfg.decorations]
                   else [])
            else []
          let recLines := if has_sub then
              format_directory cfg fm fuel sub full_path (level + 1) else []
          (headLine :: (flLines ++ recLines), openBrace)
      | Collect.all =>
          ((ind ++ disp ++ ":\x7b") :: (fileLinesFor cfg fm full_path level ++
            (if (DTree.children sub).length ≠ 0 then
              format_directory cfg fm fuel sub full_path (level + 1)
             else [])),
           true))
    (blocks.enum.map (fun ib =>
      if ib.2.2 then
        if cfg.compact_braces ∧ ib.1 = items.length - 1 then
          appendToLast ib.2.1 "\x7d"
        else ib.2.1 ++ [ind ++ "\x7d"]
      else ib.2.1)).flatten

/-- `format_collected_items` (`src/listall.py` lines 473-587): inline mode
lists decorated keys or files straight off the dictionary; summary mode
renders the built tree. -/
def format_collected_items (collected_dict : List (String × List String))
    (format_style : FormatStyle) (collect : Collect)
    (decorations : Decorations) (path_style : PathStyle)
    (sort_by : SortMode) (indent_size : Int) (compact_braces : Bool) :
    String :=
  let cfg : RenderCfg :=
    { collect := collect, decorations := decorations,
      path_style := path_style, sort_by := sort_by,
      indent_size := indent_size, compact_braces := compact_braces }
  let directory_tree := build_directory_tree collected_dict
  let lines :=
    match format_style with
    | FormatStyle.inline =>
        match collect with
        | Collect.dirsOnly =>
            collected_dict.map (fun e => apply_decorations e.1 decorations)
        | _ =>
            (collected_dict.map
              (fun e => e.2.map (fun f => apply_decorations f decorations))).flatten
    | FormatStyle.summary =>
        format_directory cfg collected_dict
          ((collected_dict.map
            (fun e => (splitOnSep e.1).length)).foldl (· + ·) 0 + 1)
          directory_tree "" 0
  "\n".intercalate lines

/-! ## Basic lemmas about the walker's recursion -/

theorem foldlAttach (l : List α) (F : β → α → β) (b : β) :
    l.attach.foldl (fun x y => F x y.1) b = l.foldl F b := by
  have h1 : l.attach.map (fun x => x.1) = l := by
    simpa using List.attach_map_val l (fun x => x)
  calc l.attach.foldl (fun x y => F x y.1) b
      = (l.attach.map (fun x => x.1)).foldl F b := by
        rw [List.foldl_map]
    _ = l.foldl F b := by rw [h1]

/-- The sorted subdirectory list the walker computes for one directory. -/
def subdirsOf (cfg : WalkCfg) (root : AbsPath) (entries : List FSEntry) :
    List ((AbsPath × Int) × List FSEntry) :=
  sortDirs cfg.sort_by (childDirs cfg.exclude_patterns root entries)

/-- The sorted file list the walker computes for one directory. -/
def filesOf (cfg : WalkCfg) (root : AbsPath) (entries : List FSEntry) :
    List (AbsPath × Int) :=
  sort_files (childFiles cfg.exclude_patterns root entries) cfg.sort_by

/-- The visit decision the walker takes for one directory. -/
def actionOf (cfg : WalkCfg) (root : AbsPath) (entries : List FSEntry)
    (depth : Nat) : VisitAction :=
  on_visit_directory root
    ((subdirsOf cfg root entries).map (fun d => pathBasename d.1.1))
    ((filesOf cfg root entries).map (fun f => pathBasename f.1))
    depth cfg.max_depth cfg.prune_large_dirs

/-- The dictionary update the walker performs for one directory
(`setdefault` followed by the per-strategy store). -/
def storeEntry (cfg : WalkCfg) (root : AbsPath) (acc : Collected)
    (stored : List AbsPath) : Collected :=
  let acc1 := if cfg.collect ≠ Collect.filesOnly then dictSetdefault acc root
              else acc
  match cfg.collect with
  | .dirsOnly => acc1
  | .dirs1stLastFile => dictSet acc1 root (firstLast stored)
  | .filesOnly => dictExtend acc1 root stored
  | .all => dictSet acc1 root stored

/-- One-step unfolding of `recurse_dir` with the recursion expressed as a
plain fold over the subdirectory list. -/
theorem recurse_dir_eq (cfg : WalkCfg) (entries : List FSEntry)
    (root : AbsPath) (depth : Nat) (acc : Collected) :
    recurse_dir cfg entries root depth acc =
      (if actionOf cfg root entries depth = VisitAction.skip then
        storeEntry cfg root acc
          ((if actionOf cfg root entries depth = VisitAction.truncated then
              firstLast (filesOf cfg root entries)
            else filesOf cfg root entries).map (fun f => f.1))
       else
        (if actionOf cfg root entries depth = VisitAction.truncated then []
         else subdirsOf cfg root entries).foldl
          (fun a sd => recurse_dir cfg sd.2 sd.1.1 (depth + 1) a)
          (storeEntry cfg root acc
            ((if actionOf cfg root entries depth = VisitAction.truncated then
                firstLast (filesOf cfg root entries)
              else filesOf cfg root entries).map (fun f => f.1)))) := by
  rw [recurse_dir]
  try simp only [dite_eq_ite]
  rw [foldlAttach _
    (fun (a : Collected) (sd : (AbsPath × Int) × List FSEntry) =>
      recurse_dir cfg sd.2 sd.1.1 (depth + 1) a)]
  rfl

/-! ## Claim C10: `winsequence` and `iname` sorting coincide -/

/-- Claim C10: for every list of paths (with their modification times),
sorting with mode `winsequence` yields exactly the same list as sorting
with mode `iname`: both modes key on the lowercased basename, so the two
sort modes are extensionally equal. -/
theorem sort_files_winsequence_eq_iname (files : List (AbsPath × Int)) :
    sort_files files SortMode.winsequence = sort_files files SortMode.iname := rfl

/-! ## Claim C7: `no-leader` strips a character class, not a single
marker -/

/-- Claim C7 counterexample: on `"..config/file"`, which does not begin
with a `"./"` or `".\"` relative-path marker, the `no-leader` decoration
nevertheless removes both leading dots, so the transform does not "remove
only a leading marker and leave every other character unchanged". -/
theorem noleader_counterexample :
    apply_decorations "..config/file"
        { unix := false, windows := false, relLeader := false,
          noLeader := true } = "config/file" ∧
      "..config/file".data.take 2 ≠ "./".data ∧
      "..config/file".data.take 2 ≠ ".\x5c".data ∧
      "config/file" ≠ "..config/file" := by
  refine ⟨by decide, by decide, by decide, by decide⟩

/-- Claim C7 (amended): with `no-leader` selected and no slash-direction
decoration, the transform removes every leading character drawn from the
set `{'.', '\'}` and then every leading character drawn from `{'.', '/'}`
— possibly more than one marker's worth — and the remaining characters
are an unchanged suffix of the original path. -/
theorem noleader_charclass (s : String) (d : Decorations)
    (hn : d.noLeader = true) (hu : d.unix = false) (hw : d.windows = false) :
    apply_decorations s d = lstripLeader s ∧
      (apply_decorations s d).data.IsSuffix s.data := by
  have h1 : apply_decorations s d = lstripLeader s := by
    rw [apply_decorations, hn, hu, hw]
    simp
  refine ⟨h1, ?_⟩
  rw [h1, lstripLeader]
  exact ((List.dropWhile_suffix _).trans (List.dropWhile_suffix _))

/-- Witness for the amended C7 theorem at the counterexample input. -/
theorem noleader_charclass_witness :
    apply_decorations "..config/file"
        { unix := false, windows := false, relLeader := false,
          noLeader := true } = lstripLeader "..config/file" ∧
      (apply_decorations "..config/file"
        { unix := false, windows := false, relLeader := false,
          noLeader := true }).data.IsSuffix "..config/file".data :=
  noleader_charclass "..config/file"
    { unix := false, windows := false, relLeader := false, noLeader := true }
    rfl rfl rfl

/-! ## Claim C4: the secondary truncation pass under `collect = all` -/

/-- Claim C4: under collection strategy `all` with a (positive)
collect-limit, the post-walk pass replaces every directory entry whose
file count exceeds the limit by its first `h` and last `h` elements,
where `h = max(1, floor(collect-limit-minimum / 2))` and the minimum
defaults to `2`; entries at or below the limit are unchanged, and the
pass does nothing for any other collection strategy. -/
theorem truncate_limit_halves (raw : Collected) (L : Int)
    (minv : Option Int) (hL : 0 < L) :
    (truncateLimit Collect.all (some L) minv raw =
      raw.map (fun e =>
        if (e.2.length : Int) > L then
          (e.1, e.2.take (max 1 ((minv.getD 2).fdiv 2)).toNat ++
            e.2.drop (e.2.length - (max 1 ((minv.getD 2).fdiv 2)).toNat))
        else e)) ∧
    ∀ (c : Collect) (lim minv2 : Option Int), c ≠ Collect.all →
      truncateLimit c lim minv2 raw = raw := by
  constructor
  · have hhalf : max ((pyOrInt minv 2).fdiv 2) 1 = max 1 ((minv.getD 2).fdiv 2) := by
      cases minv with
      | none => decide
      | some v =>
        by_cases hv : v = 0
        · subst hv; decide
        · simp [pyOrInt, hv, Option.getD]
          exact max_comm _ _
    rw [truncateLimit]
    have hL0 : L ≠ 0 := by omega
    rw [if_pos (⟨rfl, hL0⟩ : Collect.all = Collect.all ∧ L ≠ 0)]
    apply List.map_congr_left
    intro e _
    rw [hhalf]
  · intro c lim minv2 hc
    cases lim with
    | none => rfl
    | some lv =>
      rw [truncateLimit]
      rw [if_neg]
      intro hcontra
      exact hc hcontra.1

/-- Witness for C4 at the spec's own example: a directory with 10 files,
`collect-limit = 5`, `collect-limit-minimum = 4` ends with exactly 4
files — the first 2 and last 2. -/
theorem truncate_limit_halves_witness :
    (truncateLimit Collect.all (some 5) (some 4)
        [(AbsPath.mk "C:" ["d"],
          (List.range 10).map (fun i => AbsPath.mk "C:" ["d", toString i]))] =
      [(AbsPath.mk "C:" ["d"],
        (List.range 10).map (fun i => AbsPath.mk "C:" ["d", toString i]))].map
        (fun e =>
          if (e.2.length : Int) > 5 then
            (e.1, e.2.take (max 1 (((some (4 : Int)).getD 2).fdiv 2)).toNat ++
              e.2.drop (e.2.length -
                (max 1 (((some (4 : Int)).getD 2).fdiv 2)).toNat))
          else e) ∧
      ∀ (c : Collect) (lim minv2 : Option Int), c ≠ Collect.all →
        truncateLimit c lim minv2
          [(AbsPath.mk "C:" ["d"],
            (List.range 10).map (fun i => AbsPath.mk "C:" ["d", toString i]))] =
          [(AbsPath.mk "C:" ["d"],
            (List.range 10).map (fun i => AbsPath.mk "C:" ["d", toString i]))]) ∧
    truncateLimit Collect.all (some 5) (some 4)
        [(AbsPath.mk "C:" ["d"],
          (List.range 10).map (fun i => AbsPath.mk "C:" ["d", toString i]))] =
      [(AbsPath.mk "C:" ["d"],
        [AbsPath.mk "C:" ["d", "0"], AbsPath.mk "C:" ["d", "1"],
         AbsPath.mk "C:" ["d", "8"], AbsPath.mk "C:" ["d", "9"]])] :=
  ⟨truncate_limit_halves _ 5 (some 4) (by decide), by decide⟩

/-! ## Claim C6: round trip for files directly inside the start
directory -/

/-- A plain entry name as the host filesystem would allow it: non-empty,
free of both separators, and not one of the special names `.` / `..`. -/
def validNameB (s : String) : Bool :=
  s ≠ "" && !(s.data.contains '\x5c') && !(s.data.contains '/') &&
    s ≠ "." && s ≠ ".."

theorem commonPrefixLen_self (l : List String) :
    commonPrefixLen l l = l.length := by
  induction l with
  | nil => rfl
  | cons a t ih => simp [commonPrefixLen, ih]

theorem commonPrefixLen_concat (l : List String) (x : String) :
    commonPrefixLen (l ++ [x]) l = l.length := by
  induction l with
  | nil => rfl
  | cons a t ih => simp [commonPrefixLen, ih]

theorem relpathStr_self (p : AbsPath) : relpathStr p p = "." := by
  rw [relpathStr]
  simp [commonPrefixLen_self]

theorem relpathStr_joinSeg (p : AbsPath) (nm : String) :
    relpathStr (joinSeg p nm) p = nm := by
  rw [relpathStr, joinSeg]
  simp only [commonPrefixLen_concat, Nat.sub_self, List.replicate_zero,
    List.nil_append, List.drop_left]
  rfl

theorem sameDrive_refl (p q : AbsPath) (h : p.drive = q.drive) :
    sameDrive p q = true := by
  simp [sameDrive, h]

theorem validNameB_head_not_sep {s : String} (h : validNameB s = true) :
    strHeadIsSep s = false := by
  rw [validNameB] at h
  simp only [Bool.and_eq_true, Bool.not_eq_true', decide_eq_true_eq] at h
  rw [strHeadIsSep]
  rcases hd : s.data with _ | ⟨c, t⟩
  · rfl
  · simp only [decide_eq_false_iff_not]
    intro hc
    rcases hc with hc | hc <;>
    · subst hc
      have := h.1.1.2
      rw [hd] at this
      simp at this
      try exact this (Or.inl rfl)
      try
        have h2 := h.1.1.1.2
        rw [hd] at h2
        simp at h2

theorem validNameB_last_not_sep {s : String} (h : validNameB s = true) :
    strLastIsSep s = false := by
  rw [validNameB] at h
  simp only [Bool.and_eq_true, Bool.not_eq_true', decide_eq_true_eq] at h
  rw [strLastIsSep]
  cases hd : s.data.getLast? with
  | none => rfl
  | some c =>
    have hc : c ∈ s.data := List.mem_of_getLast?_eq_some hd
    simp only [decide_eq_false_iff_not]
    intro hor
    rcases hor with hor | hor
    · subst hor
      have hb := h.1.1.1.2
      simp [List.contains_iff_exists_mem_beq] at hb
      exact hb hc
    · subst hor
      have hb := h.1.1.2
      simp [List.contains_iff_exists_mem_beq] at hb
      exact hb hc

theorem ntJoin_plain {a b : String} (ha : a ≠ "")
    (hlast : strLastIsSep a = false) (hhead : strHeadIsSep b = false) :
    ntJoin a b = a ++ sepS ++ b := by
  rw [ntJoin, hhead, if_neg (by simp), if_neg ha, hlast, if_neg (by simp)]

/-- Claim C6: for a file directly inside the start directory, the `rel`
style renders its bare filename (decorated); `rel-base` with no custom
label renders the start directory's basename joined with the filename
(decorated); and the `rel-base` directory key for the start directory
itself is exactly the decorated label, with no trailing remainder. -/
theorem rel_relbase_roundtrip (start : AbsPath) (nm : String)
    (decs : Decorations) (strict : Bool)
    (hbase : validNameB (pathBasename start) = true)
    (hnm : validNameB nm = true) :
    adjustFilePath start PathStyle.rel decs strict none (joinSeg start nm) =
        Except.ok (apply_decorations nm decs) ∧
      adjustFilePath start PathStyle.relBase decs strict none
          (joinSeg start nm) =
        Except.ok (apply_decorations (pathBasename start ++ sepS ++ nm) decs) ∧
      adjustDirKey start PathStyle.relBase decs strict none start =
        Except.ok (apply_decorations (pathBasename start) decs) := by
  have hsame : sameDrive (joinSeg start nm) start = true :=
    sameDrive_refl _ _ rfl
  have hsame2 : sameDrive start start = true := sameDrive_refl _ _ rfl
  refine ⟨?_, ?_, ?_⟩
  · rw [adjustFilePath, if_neg (by simp [hsame])]
    simp [hsame, relpathStr_joinSeg]
  · have ha : pathBasename start ≠ "" := by
      rw [validNameB] at hbase
      simp only [Bool.and_eq_true, decide_eq_true_eq] at hbase
      exact hbase.1.1.1.1
    rw [adjustFilePath, if_neg (by simp [hsame])]
    simp only [hsame, if_pos, if_true, Except.ok.injEq, labelOf]
    rw [relpathStr_joinSeg,
      ntJoin_plain ha (validNameB_last_not_sep hbase)
        (validNameB_head_not_sep hnm)]
  · rw [adjustDirKey]
    simp only
    rw [if_neg (by simp [hsame2])]
    simp [hsame2, relpathStr_self, labelOf]

/-- Witness for C6 at a concrete start path and filename. -/
theorem rel_relbase_roundtrip_witness :
    (adjustFilePath (AbsPath.mk "C:" ["proj"]) PathStyle.rel
        { unix := false, windows := false, relLeader := false,
          noLeader := false } true none
        (joinSeg (AbsPath.mk "C:" ["proj"]) "file.txt") =
      Except.ok (apply_decorations "file.txt"
        { unix := false, windows := false, relLeader := false,
          noLeader := false }) ∧
      adjustFilePath (AbsPath.mk "C:" ["proj"]) PathStyle.relBase
          { unix := false, windows := false, relLeader := false,
            noLeader := false } true none
          (joinSeg (AbsPath.mk "C:" ["proj"]) "file.txt") =
        Except.ok (apply_decorations
          (pathBasename (AbsPath.mk "C:" ["proj"]) ++ sepS ++ "file.txt")
          { unix := false, windows := false, relLeader := false,
            noLeader := false }) ∧
      adjustDirKey (AbsPath.mk "C:" ["proj"]) PathStyle.relBase
          { unix := false, windows := false, relLeader := false,
            noLeader := false } true none (AbsPath.mk "C:" ["proj"]) =
        Except.ok (apply_decorations (pathBasename (AbsPath.mk "C:" ["proj"]))
          { unix := false, windows := false, relLeader := false,
            noLeader := false })) :=
  rel_relbase_roundtrip (AbsPath.mk "C:" ["proj"]) "file.txt"
    { unix := false, windows := false, relLeader := false, noLeader := false }
    true (by decide) (by decide)

/-! ## Claim C5: cross-root failure and fallback in the path adjuster -/

theorem adjustFilePath_error {start f : AbsPath} {style : PathStyle}
    {decs : Decorations} {strict : Bool} {label : Option String} {e : String}
    (h : adjustFilePath start style decs strict label f = Except.error e) :
    e = crossMsg f ∧ sameDrive f start = false := by
  rw [adjustFilePath.eq_def] at h
  by_cases hc : (strict = true ∧
      (style = PathStyle.rel ∨ style = PathStyle.relBase) ∧
      ¬ (sameDrive f start = true))
  · rw [if_pos hc] at h
    injection h with he
    exact ⟨he.symm, by simpa using hc.2.2⟩
  · rw [if_neg hc] at h
    cases h

theorem adjustDirKey_error {start k : AbsPath} {style : PathStyle}
    {decs : Decorations} {strict : Bool} {label : Option String} {e : String}
    (h : adjustDirKey start style decs strict label k = Except.error e) :
    e = crossMsg k ∧ sameDrive k start = false := by
  cases style with
  | filesOnly => rw [adjustDirKey] at h; cases h
  | full =>
    rw [adjustDirKey.eq_def] at h
    simp only [reduceCtorEq, false_or, false_and, and_false, if_false] at h
  | rel =>
    rw [adjustDirKey] at h
    by_cases hc : (strict = true ∧
        (PathStyle.rel = PathStyle.rel ∨ PathStyle.rel = PathStyle.relBase) ∧
        ¬ (sameDrive k start = true))
    · rw [if_pos hc] at h
      injection h with he
      exact ⟨he.symm, by simpa using hc.2.2⟩
    · rw [if_neg hc] at h
      cases h
  | relBase =>
    rw [adjustDirKey] at h
    by_cases hc : (strict = true ∧
        (PathStyle.relBase = PathStyle.rel ∨
          PathStyle.relBase = PathStyle.relBase) ∧
        ¬ (sameDrive k start = true))
    · rw [if_pos hc] at h
      injection h with he
      exact ⟨he.symm, by simpa using hc.2.2⟩
    · rw [if_neg hc] at h
      cases h

theorem adjustDirKey_ok_same {start k : AbsPath} {style : PathStyle}
    {decs : Decorations} {label : Option String} {v : String}
    (hstyle : style = PathStyle.rel ∨ style = PathStyle.relBase)
    (h : adjustDirKey start style decs true label k = Except.ok v) :
    sameDrive k start = true := by
  by_contra hfalse
  rcases hstyle with hs | hs <;> subst hs <;>
    (rw [adjustDirKey] at h
     rw [if_pos ⟨rfl, by simp, by simpa using hfalse⟩] at h
     cases h)

theorem adjustFilesLoop_error {start : AbsPath} {style : PathStyle}
    {decs : Decorations} {strict : Bool} {label : Option String}
    {fl : List AbsPath} {e : String}
    (h : adjustFilesLoop start style decs strict label fl = Except.error e) :
    ∃ f ∈ fl, adjustFilePath start style decs strict label f =
      Except.error e := by
  induction fl with
  | nil => simp [adjustFilesLoop] at h
  | cons f t ih =>
    rw [adjustFilesLoop] at h
    split at h
    · rename_i he
      cases h
      exact ⟨f, List.mem_cons_self f t, he⟩
    · split at h
      · rename_i he
        cases h
        obtain ⟨g, hg, hge⟩ := ih he
        exact ⟨g, List.mem_cons_of_mem f hg, hge⟩
      · cases h

theorem adjustFilePath_cross_error {start f : AbsPath} {style : PathStyle}
    (decs : Decorations) (label : Option String)
    (hstyle : style = PathStyle.rel ∨ style = PathStyle.relBase)
    (hdrive : sameDrive f start = false) :
    adjustFilePath start style decs true label f =
      Except.error (crossMsg f) := by
  rw [adjustFilePath.eq_def, if_pos ⟨rfl, hstyle, by simp [hdrive]⟩]

theorem adjustFilesLoop_ok_same {start : AbsPath} {style : PathStyle}
    {decs : Decorations} {label : Option String}
    {fl : List AbsPath} {v : List String}
    (hstyle : style = PathStyle.rel ∨ style = PathStyle.relBase)
    (h : adjustFilesLoop start style decs true label fl = Except.ok v) :
    ∀ f ∈ fl, sameDrive f start = true := by
  induction fl generalizing v with
  | nil => intro f hf; cases hf
  | cons g t ih =>
    rw [adjustFilesLoop] at h
    split at h
    · cases h
    · rename_i s hs
      split at h
      · cases h
      · rename_i rest hrest
        cases h
        intro f hf
        rcases List.mem_cons.1 hf with hf | hf
        · subst hf
          by_contra hfalse
          rw [adjustFilePath_cross_error decs label hstyle
            (by simpa using hfalse)] at hs
          cases hs
        · exact ih hrest f hf

theorem adjustFilePath_ok_nonstrict (start f : AbsPath) (style : PathStyle)
    (decs : Decorations) (label : Option String) :
    ∃ s, adjustFilePath start style decs false label f = Except.ok s := by
  rw [adjustFilePath.eq_def]
  rw [if_neg (by simp)]
  exact ⟨_, rfl⟩

theorem adjustDirKey_ok_nonstrict (start k : AbsPath) (style : PathStyle)
    (decs : Decorations) (label : Option String) :
    ∃ s, adjustDirKey start style decs false label k = Except.ok s := by
  cases style <;> simp [adjustDirKey]

theorem adjustFilesLoop_ok_nonstrict (start : AbsPath) (style : PathStyle)
    (decs : Decorations) (label : Option String) (fl : List AbsPath) :
    ∃ v, adjustFilesLoop start style decs false label fl = Except.ok v := by
  induction fl with
  | nil => exact ⟨[], rfl⟩
  | cons f t ih =>
    obtain ⟨s, hs⟩ := adjustFilePath_ok_nonstrict start f style decs label
    obtain ⟨v, hv⟩ := ih
    refine ⟨s :: v, ?_⟩
    rw [adjustFilesLoop, hs, hv]

theorem adjustEntry_ok_nonstrict (start k : AbsPath) (style : PathStyle)
    (decs : Decorations) (label : Option String) (fl : List AbsPath) :
    ∃ v, adjustEntry start style decs false label k fl = Except.ok v := by
  obtain ⟨v, hv⟩ := adjustFilesLoop_ok_nonstrict start style decs label fl
  obtain ⟨s, hs⟩ := adjustDirKey_ok_nonstrict start k style decs label
  refine ⟨(s, v), ?_⟩
  rw [adjustEntry, hv, hs]

theorem adjustLoop_ok_nonstrict (start : AbsPath) (style : PathStyle)
    (decs : Decorations) (label : Option String) (d : Collected) :
    ∀ acc, ∃ adj, adjustLoop start style decs false label d acc =
      Except.ok adj := by
  induction d with
  | nil => intro acc; exact ⟨acc, rfl⟩
  | cons e t ih =>
    intro acc
    obtain ⟨v, hv⟩ := adjustEntry_ok_nonstrict start e.1 style decs label e.2
    obtain ⟨adj, hadj⟩ := ih (dictSet acc v.1 v.2)
    refine ⟨adj, ?_⟩
    rw [adjustLoop, hv]
    exact hadj

theorem adjustEntry_error {start k : AbsPath} {style : PathStyle}
    {decs : Decorations} {strict : Bool} {label : Option String}
    {fl : List AbsPath} {e : String}
    (h : adjustEntry start style decs strict label k fl = Except.error e) :
    ∃ p, e = crossMsg p ∧ sameDrive p start = false ∧ (p = k ∨ p ∈ fl) := by
  rw [adjustEntry] at h
  split at h
  · rename_i he
    cases h
    obtain ⟨f, hf, hfe⟩ := adjustFilesLoop_error he
    obtain ⟨h1, h2⟩ := adjustFilePath_error hfe
    exact ⟨f, h1, h2, Or.inr hf⟩
  · split at h
    · rename_i he
      cases h
      obtain ⟨h1, h2⟩ := adjustDirKey_error he
      exact ⟨k, h1, h2, Or.inl rfl⟩
    · cases h

theorem adjustLoop_error_of_offender {start : AbsPath} {style : PathStyle}
    {decs : Decorations} {label : Option String}
    (hstyle : style = PathStyle.rel ∨ style = PathStyle.relBase) :
    ∀ (d : Collected) (acc : List (String × List String))
      (k : AbsPath) (fl : List AbsPath) (f : AbsPath),
      (k, fl) ∈ d → (f = k ∨ f ∈ fl) → sameDrive f start = false →
      ∃ p, adjustLoop start style decs true label d acc =
          Except.error (crossMsg p) ∧ sameDrive p start = false ∧
          ∃ k2 fl2, (k2, fl2) ∈ d ∧ (p = k2 ∨ p ∈ fl2) := by
  intro d
  induction d with
  | nil => intro acc k fl f hmem; cases hmem
  | cons hd t ih =>
    intro acc k fl f hmem hor hdrive
    cases hent : adjustEntry start style decs true label hd.1 hd.2 with
    | error e =>
      obtain ⟨p, hp1, hp2, hp3⟩ := adjustEntry_error hent
      refine ⟨p, ?_, hp2, hd.1, hd.2, List.mem_cons_self hd t, hp3⟩
      cases hd
      rw [adjustLoop, hent, hp1]
    | ok kv =>
      rcases List.mem_cons.1 hmem with hh | hh
      · exfalso
        rw [adjustEntry] at hent
        split at hent
        · cases hent
        · rename_i files hfiles
          split at hent
          · cases hent
          · rename_i key hkey
            have hk : sameDrive hd.1 start = true :=
              adjustDirKey_ok_same hstyle hkey
            have hfl : ∀ g ∈ hd.2, sameDrive g start = true :=
              adjustFilesLoop_ok_same hstyle hfiles
            have hk1 : k = hd.1 := by
              have hcg := congrArg Prod.fst hh
              simpa using hcg
            have hfl1 : fl = hd.2 := by
              have hcg := congrArg Prod.snd hh
              simpa using hcg
            rcases hor with hf | hf
            · subst hf; rw [hk1] at hdrive; rw [hk] at hdrive; cases hdrive
            · rw [hfl1] at hf
              rw [hfl f hf] at hdrive
              cases hdrive
      · obtain ⟨p, hp1, hp2, k2, fl2, hk2, hp3⟩ :=
          ih (dictSet acc kv.1 kv.2) k fl f hh hor hdrive
        refine ⟨p, ?_, hp2, k2, fl2, List.mem_cons_of_mem hd hk2, hp3⟩
        cases hd
        rw [adjustLoop, hent]
        exact hp1

/-- Claim C5: for the path adjuster in `rel`/`rel-base` style, a
cross-root entry (file or directory key on a different drive than the
start path) under strict mode makes the whole adjustment fail with an
error naming an offending cross-root absolute path of the input, while
without strict mode the same cross-root path is rendered as its
unmodified absolute string and the adjustment succeeds. -/
theorem adjust_paths_cross_root (d : Collected) (start : AbsPath)
    (style : PathStyle) (decs : Decorations) (collect : Collect)
    (label : Option String)
    (hstyle : style = PathStyle.rel ∨ style = PathStyle.relBase) :
    (∀ (k : AbsPath) (fl : List AbsPath) (f : AbsPath),
      (k, fl) ∈ d → (f = k ∨ f ∈ fl) → sameDrive f start = false →
      ∃ p, adjust_paths d start style decs collect true label =
          Except.error (crossMsg p) ∧ sameDrive p start = false ∧
          ∃ k2 fl2, (k2, fl2) ∈ d ∧ (p = k2 ∨ p ∈ fl2)) ∧
    (∀ f : AbsPath, sameDrive f start = false →
      adjustFilePath start style decs false label f =
          Except.ok (pathToString f) ∧
        adjustDirKey start style decs false label f =
          Except.ok (pathToString f)) ∧
    (∃ adj, adjust_paths d start style decs collect false label =
        Except.ok adj) := by
  refine ⟨?_, ?_, ?_⟩
  · intro k fl f hmem hor hdrive
    exact adjustLoop_error_of_offender hstyle d [] k fl f hmem hor hdrive
  · intro f hdrive
    constructor
    · rcases hstyle with hs | hs <;> subst hs <;>
        (rw [adjustFilePath, if_neg (by simp)]
         simp [hdrive])
    · rcases hstyle with hs | hs <;> subst hs <;>
        (rw [adjustDirKey]
         rw [if_neg (by simp)]
         simp [hdrive])
  · exact adjustLoop_ok_nonstrict start style decs label d []

/-- Witness for C5: one dictionary entry whose file and key live on
drive `D:` while the start path is on `C:`. -/
theorem adjust_paths_cross_root_witness :
    ((PathStyle.rel = PathStyle.rel ∨ PathStyle.rel = PathStyle.relBase) ∧
      ((AbsPath.mk "D:" ["x"], [AbsPath.mk "D:" ["x", "f"]]) ∈
        ([(AbsPath.mk "D:" ["x"], [AbsPath.mk "D:" ["x", "f"]])] : Collected)) ∧
      (AbsPath.mk "D:" ["x", "f"] = AbsPath.mk "D:" ["x"] ∨
        AbsPath.mk "D:" ["x", "f"] ∈ [AbsPath.mk "D:" ["x", "f"]]) ∧
      sameDrive (AbsPath.mk "D:" ["x", "f"]) (AbsPath.mk "C:" ["s"]) = false) ∧
    (∃ p, adjust_paths [(AbsPath.mk "D:" ["x"], [AbsPath.mk "D:" ["x", "f"]])]
        (AbsPath.mk "C:" ["s"]) PathStyle.rel
        { unix := false, windows := false, relLeader := false,
          noLeader := false } Collect.all true none =
        Except.error (crossMsg p) ∧
        sameDrive p (AbsPath.mk "C:" ["s"]) = false ∧
        ∃ k2 fl2,
          (k2, fl2) ∈ ([(AbsPath.mk "D:" ["x"],
            [AbsPath.mk "D:" ["x", "f"]])] : Collected) ∧
          (p = k2 ∨ p ∈ fl2)) := by
  refine ⟨⟨Or.inl rfl, by decide, by decide, by decide⟩, ?_⟩
  exact (adjust_paths_cross_root
      [(AbsPath.mk "D:" ["x"], [AbsPath.mk "D:" ["x", "f"]])]
      (AbsPath.mk "C:" ["s"]) PathStyle.rel
      { unix := false, windows := false, relLeader := false,
        noLeader := false } Collect.all none (Or.inl rfl)).1
    (AbsPath.mk "D:" ["x"]) [AbsPath.mk "D:" ["x", "f"]]
    (AbsPath.mk "D:" ["x", "f"]) (by decide) (by decide) (by decide)

/-! ## Claims C2 and C3: pruning and depth limiting in the walker -/

theorem dictKeys_dictSet [DecidableEq κ] {d : List (κ × β)} {k0 k : κ}
    {v : β} (h : k ∈ dictKeys (dictSet d k0 v)) :
    k ∈ dictKeys d ∨ k = k0 := by
  induction d with
  | nil =>
    rw [dictSet] at h
    simp [dictKeys] at h
    exact Or.inr h
  | cons e t ih =>
    by_cases hc : e.1 = k0
    · rw [dictSet, if_pos hc] at h
      simp only [dictKeys, List.map_cons, List.mem_cons] at h
      rcases h with h | h
      · exact Or.inr h
      · refine Or.inl ?_
        simp only [dictKeys, List.map_cons, List.mem_cons]
        exact Or.inr h
    · rw [dictSet, if_neg hc] at h
      simp only [dictKeys, List.map_cons, List.mem_cons] at h
      rcases h with h | h
      · exact Or.inl (by simp [dictKeys, h])
      · rcases ih h with h2 | h2
        · refine Or.inl ?_
          simp only [dictKeys, List.map_cons, List.mem_cons]
          exact Or.inr h2
        · exact Or.inr h2

theorem dictKeys_dictSetdefault [DecidableEq κ] {d : List (κ × List β)}
    {k0 k : κ} (h : k ∈ dictKeys (dictSetdefault d k0)) :
    k ∈ dictKeys d ∨ k = k0 := by
  rw [dictSetdefault] at h
  by_cases hc : dictContains d k0 = true
  · rw [if_pos hc] at h
    exact Or.inl h
  · rw [if_neg hc] at h
    rw [dictKeys, List.map_append] at h
    rcases List.mem_append.1 h with h | h
    · exact Or.inl h
    · simp at h
      exact Or.inr h

theorem dictKeys_dictExtend [DecidableEq κ] {d : List (κ × List β)}
    {k0 k : κ} {v : List β} (h : k ∈ dictKeys (dictExtend d k0 v)) :
    k ∈ dictKeys d ∨ k = k0 := by
  induction d with
  | nil =>
    rw [dictExtend] at h
    simp [dictKeys] at h
    exact Or.inr h
  | cons e t ih =>
    by_cases hc : e.1 = k0
    · rw [dictExtend, if_pos hc] at h
      simp only [dictKeys, List.map_cons, List.mem_cons] at h
      rcases h with h | h
      · exact Or.inl (by simp [dictKeys, h])
      · refine Or.inl ?_
        simp only [dictKeys, List.map_cons, List.mem_cons]
        exact Or.inr h
    · rw [dictExtend, if_neg hc] at h
      simp only [dictKeys, List.map_cons, List.mem_cons] at h
      rcases h with h | h
      · exact Or.inl (by simp [dictKeys, h])
      · rcases ih h with h2 | h2
        · refine Or.inl ?_
          simp only [dictKeys, List.map_cons, List.mem_cons]
          exact Or.inr h2
        · exact Or.inr h2

theorem dictKeys_storeEntry {cfg : WalkCfg} {root : AbsPath}
    {acc : Collected} {v : List AbsPath} {k : AbsPath}
    (h : k ∈ dictKeys (storeEntry cfg root acc v)) :
    k ∈ dictKeys acc ∨ k = root := by
  rw [storeEntry] at h
  rcases hc : cfg.collect <;> rw [hc] at h <;> simp only at h
  case dirsOnly =>
    split at h
    · exact dictKeys_dictSetdefault h
    · exact Or.inl h
  case dirs1stLastFile =>
    rcases dictKeys_dictSet h with h2 | h2
    · split at h2
      · exact dictKeys_dictSetdefault h2
      · exact Or.inl h2
    · exact Or.inr h2
  case filesOnly =>
    rcases dictKeys_dictExtend h with h2 | h2
    · split at h2
      · exact dictKeys_dictSetdefault h2
      · exact Or.inl h2
    · exact Or.inr h2
  case all =>
    rcases dictKeys_dictSet h with h2 | h2
    · split at h2
      · exact dictKeys_dictSetdefault h2
      · exact Or.inl h2
    · exact Or.inr h2

theorem mem_childDirs_shape {pats : List String} {root : AbsPath}
    {entries : List FSEntry} {x : (AbsPath × Int) × List FSEntry}
    (h : x ∈ childDirs pats root entries) :
    ∃ n mt cs, x = ((joinSeg root n, mt), cs) ∧
      FSEntry.dir n mt cs ∈ entries ∧
      is_excluded pats (joinSeg root n) = false := by
  rw [childDirs, List.mem_filterMap] at h
  obtain ⟨e, he, hfe⟩ := h
  cases e with
  | file n mt => simp at hfe
  | dir n mt cs =>
    simp only at hfe
    split at hfe
    · cases hfe
    · rename_i hex
      cases hfe
      exact ⟨n, mt, cs, rfl, he, by simpa using hex⟩

theorem mem_subdirsOf_shape {cfg : WalkCfg} {root : AbsPath}
    {entries : List FSEntry} {x : (AbsPath × Int) × List FSEntry}
    (h : x ∈ subdirsOf cfg root entries) :
    ∃ n mt cs, x = ((joinSeg root n, mt), cs) ∧
      FSEntry.dir n mt cs ∈ entries ∧
      is_excluded cfg.exclude_patterns (joinSeg root n) = false :=
  mem_childDirs_shape (((stableSortBy_perm _ _).mem_iff).1 h)

theorem actionOf_skip {cfg : WalkCfg} {md : Int} (root : AbsPath)
    (entries : List FSEntry) (depth : Nat)
    (hmd : cfg.max_depth = some md) (hd : md ≤ (depth : Int)) :
    actionOf cfg root entries depth = VisitAction.skip := by
  cases hp : cfg.prune_large_dirs with
  | none =>
    rw [actionOf, hmd, hp, on_visit_directory]
    rw [if_pos (by omega)]
  | some t =>
    rw [actionOf, hmd, hp, on_visit_directory]
    rw [if_pos (by omega)]

theorem actionOf_truncated {cfg : WalkCfg} {t : Int} (root : AbsPath)
    (entries : List FSEntry) (depth : Nat)
    (hp : cfg.prune_large_dirs = some t)
    (hmd : ∀ md, cfg.max_depth = some md → (depth : Int) < md)
    (hcount : t ≤ ((filesOf cfg root entries).length : Int)) :
    actionOf cfg root entries depth = VisitAction.truncated := by
  cases hm : cfg.max_depth with
  | none =>
    rw [actionOf, hm, hp, on_visit_directory]
    rw [if_pos (by simpa [filesOf] using hcount)]
  | some md =>
    have hlt := hmd md hm
    rw [actionOf, hm, hp, on_visit_directory]
    rw [if_neg (by omega)]
    rw [if_pos (by simpa [filesOf] using hcount)]

theorem actionOf_lt_of_ne_skip {cfg : WalkCfg} {m : Int} {root : AbsPath}
    {entries : List FSEntry} {depth : Nat}
    (hmd : cfg.max_depth = some m)
    (h : actionOf cfg root entries depth ≠ VisitAction.skip) :
    (depth : Int) < m := by
  by_contra hge
  exact h (actionOf_skip root entries depth hmd (by omega))

/-- Claim C2: a directory visited by the walker with the prune threshold
set, no depth cutoff at its depth, and at least `threshold` many
(post-exclusion, sorted) files, contributes exactly one entry — its own,
holding the first and last sorted file (the whole list when it has at
most one file) — and none of its subdirectories are visited, so nothing
below it enters the walker's dictionary. -/
theorem recurse_dir_pruned (cfg : WalkCfg) (entries : List FSEntry)
    (root : AbsPath) (depth : Nat) (acc : Collected) (t : Int)
    (hcollect : cfg.collect = Collect.all)
    (hprune : cfg.prune_large_dirs = some t)
    (hmd : ∀ md, cfg.max_depth = some md → (depth : Int) < md)
    (hcount : t ≤
      ((sort_files (childFiles cfg.exclude_patterns root entries)
        cfg.sort_by).length : Int)) :
    recurse_dir cfg entries root depth acc =
      dictSet (dictSetdefault acc root) root
        ((firstLast (sort_files (childFiles cfg.exclude_patterns root entries)
          cfg.sort_by)).map (fun f => f.1)) := by
  have haction : actionOf cfg root entries depth = VisitAction.truncated :=
    actionOf_truncated root entries depth hprune hmd hcount
  rw [recurse_dir_eq, haction]
  simp only [reduceCtorEq, if_false, if_true, List.foldl_nil]
  rw [storeEntry, hcollect]
  simp [filesOf]

/-- The walker configuration used by the C2 witness: prune threshold 2. -/
def pruneCfg : WalkCfg :=
  { exclude_patterns := [], sort_by := SortMode.iname,
    collect := Collect.all, max_depth := none, prune_large_dirs := some 2 }

/-- The small tree used by the C2 witness. -/
def pruneFS : List FSEntry :=
  [FSEntry.file "b" 0, FSEntry.dir "sub" 0 [FSEntry.file "deep" 0],
    FSEntry.file "a" 0]

/-- Witness for C2: a directory with two files and a subdirectory, prune
threshold 2 — only the two files survive and the subdirectory's subtree
is never recorded. -/
theorem recurse_dir_pruned_witness :
    (pruneCfg.collect = Collect.all) ∧
    (pruneCfg.prune_large_dirs = some 2) ∧
    ((2 : Int) ≤ ((sort_files (childFiles pruneCfg.exclude_patterns
      (AbsPath.mk "C:" ["top"]) pruneFS) pruneCfg.sort_by).length : Int)) ∧
    recurse_dir pruneCfg pruneFS (AbsPath.mk "C:" ["top"]) 0 [] =
      dictSet (dictSetdefault [] (AbsPath.mk "C:" ["top"]))
        (AbsPath.mk "C:" ["top"])
        ((firstLast (sort_files (childFiles pruneCfg.exclude_patterns
            (AbsPath.mk "C:" ["top"]) pruneFS)
          pruneCfg.sort_by)).map (fun f => f.1)) :=
  ⟨rfl, rfl, by decide,
    recurse_dir_pruned pruneCfg pruneFS (AbsPath.mk "C:" ["top"]) 0 [] 2
      rfl rfl (by intro md h; cases h) (by decide)⟩

theorem recurse_dir_keys_depth (cfg : WalkCfg) (m : Int)
    (hmd : cfg.max_depth = some m) :
    ∀ (entries : List FSEntry) (root : AbsPath) (depth : Nat)
      (acc : Collected),
      ∀ k ∈ dictKeys (recurse_dir cfg entries root depth acc),
        k ∈ dictKeys acc ∨
          k.segs.length ≤ root.segs.length + (m - (depth : Int)).toNat := by
  intro entries root depth acc
  induction entries, root, depth, acc using recurse_dir.induct cfg with
  | case1 entries root depth acc subdirs files action hskip =>
    have hskip2 : actionOf cfg root entries depth = VisitAction.skip := hskip
    intro k hk
    rw [recurse_dir_eq] at hk
    rw [if_pos hskip2] at hk
    rcases dictKeys_storeEntry hk with h | h
    · exact Or.inl h
    · subst h; right; omega
  | case2 entries root depth acc subdirs files action subdirs2 hskip ih =>
    have hskip2 : ¬ actionOf cfg root entries depth = VisitAction.skip := hskip
    intro k hk
    rw [recurse_dir_eq, if_neg hskip2] at hk
    have hlt : (depth : Int) < m := actionOf_lt_of_ne_skip hmd hskip2
    -- fold invariant over the subdirectory list
    have hfold :
        ∀ (l : List ((AbsPath × Int) × List FSEntry)),
          (∀ x ∈ l, x ∈ (if actionOf cfg root entries depth =
              VisitAction.truncated then []
            else subdirsOf cfg root entries)) →
          ∀ (b : Collected),
            (∀ k2 ∈ dictKeys b, k2 ∈ dictKeys acc ∨
              k2.segs.length ≤ root.segs.length +
                (m - (depth : Int)).toNat) →
          ∀ k2 ∈ dictKeys (l.foldl
              (fun a sd => recurse_dir cfg sd.2 sd.1.1 (depth + 1) a) b),
            k2 ∈ dictKeys acc ∨
              k2.segs.length ≤ root.segs.length +
                (m - (depth : Int)).toNat := by
      intro l
      induction l with
      | nil => intro _ b hb k2 hk2; exact hb k2 hk2
      | cons x xs ihl =>
        intro hsub b hb k2 hk2
        rw [List.foldl_cons] at hk2
        refine ihl (fun y hy => hsub y (List.mem_cons_of_mem x hy)) _ ?_ k2 hk2
        intro k3 hk3
        have hx : x ∈ (if actionOf cfg root entries depth =
            VisitAction.truncated then []
          else subdirsOf cfg root entries) := hsub x (List.mem_cons_self x xs)
        have hx2 : x ∈ subdirsOf cfg root entries := by
          by_cases ha : actionOf cfg root entries depth = VisitAction.truncated
          · rw [if_pos ha] at hx; cases hx
          · rw [if_neg ha] at hx; exact hx
        obtain ⟨n, mt, cs, hxeq, _, _⟩ := mem_subdirsOf_shape hx2
        have hih := ih b ⟨x, hx⟩ k3 hk3
        rcases hih with h | h
        · exact hb k3 h
        · right
          have hlen : x.1.1.segs.length = root.segs.length + 1 := by
            rw [hxeq]
            simp [joinSeg]
          have h2 : k3.segs.length ≤ x.1.1.segs.length +
              (m - ((depth + 1 : Nat) : Int)).toNat := h
          omega
    exact hfold _ (fun x hx => hx) _
      (fun k2 hk2 => by
        rcases dictKeys_storeEntry hk2 with h | h
        · exact Or.inl h
        · subst h; right; omega) k hk

/-- Claim C3: with a maximum depth set, a directory at the depth cutoff
still contributes its own entry with its full (post-exclusion, sorted)
file list under `collect = all`, but descent stops there, so every key
of the walker's dictionary stays within `maxDepth` segments of the start
path. -/
theorem recurse_dir_max_depth (cfg : WalkCfg) (m : Int)
    (hcollect : cfg.collect = Collect.all)
    (hmd : cfg.max_depth = some m) :
    (∀ (entries : List FSEntry) (root : AbsPath) (depth : Nat)
      (acc : Collected), m ≤ (depth : Int) →
      recurse_dir cfg entries root depth acc =
        dictSet (dictSetdefault acc root) root
          ((sort_files (childFiles cfg.exclude_patterns root entries)
            cfg.sort_by).map (fun f => f.1))) ∧
    (0 ≤ m → ∀ (fs : List FSEntry) (start : AbsPath),
      ∀ k ∈ dictKeys (recurse_dir cfg fs start 0 []),
        k.segs.length ≤ start.segs.length + m.toNat) := by
  constructor
  · intro entries root depth acc hd
    have haction : actionOf cfg root entries depth = VisitAction.skip :=
      actionOf_skip root entries depth hmd hd
    rw [recurse_dir_eq, haction]
    simp only [if_true, reduceCtorEq, if_false]
    rw [storeEntry, hcollect]
    simp [filesOf]
  · intro hm fs start k hk
    rcases recurse_dir_keys_depth cfg m hmd fs start 0 [] k hk with h | h
    · cases h
    · simpa using h

/-- The walker configuration used by the C3 witness: `maxDepth = 1`. -/
def depthCfg : WalkCfg :=
  { exclude_patterns := [], sort_by := SortMode.iname,
    collect := Collect.all, max_depth := some 1, prune_large_dirs := none }

/-- The two-level tree used by the C3 witness. -/
def depthFS : List FSEntry :=
  [FSEntry.dir "sub" 0 [FSEntry.dir "deep" 0 [FSEntry.file "f2" 0]]]

/-- Witness for C3: `maxDepth = 1` over a two-level tree — the depth-1
directory keeps its file, nothing at depth 2 appears. -/
theorem recurse_dir_max_depth_witness :
    ((depthCfg.collect = Collect.all) ∧ (depthCfg.max_depth = some 1)) ∧
    ((1 : Int) ≤ ((1 : Nat) : Int)) ∧
    (recurse_dir depthCfg
      [FSEntry.file "f1" 0, FSEntry.dir "deep" 0 [FSEntry.file "f2" 0]]
      (AbsPath.mk "C:" ["top", "sub"]) 1 [] =
      dictSet (dictSetdefault [] (AbsPath.mk "C:" ["top", "sub"]))
        (AbsPath.mk "C:" ["top", "sub"])
        ((sort_files (childFiles depthCfg.exclude_patterns
          (AbsPath.mk "C:" ["top", "sub"])
          [FSEntry.file "f1" 0, FSEntry.dir "deep" 0 [FSEntry.file "f2" 0]])
          depthCfg.sort_by).map (fun f => f.1))) ∧
    (∀ k ∈ dictKeys (recurse_dir depthCfg depthFS
        (AbsPath.mk "C:" ["top"]) 0 []),
      k.segs.length ≤ (AbsPath.mk "C:" ["top"]).segs.length +
        (1 : Int).toNat) :=
  ⟨⟨rfl, rfl⟩, by decide,
    (recurse_dir_max_depth depthCfg 1 rfl rfl).1
      [FSEntry.file "f1" 0, FSEntry.dir "deep" 0 [FSEntry.file "f2" 0]]
      (AbsPath.mk "C:" ["top", "sub"]) 1 [] (by decide),
    (recurse_dir_max_depth depthCfg 1 rfl rfl).2 (by decide)
      depthFS (AbsPath.mk "C:" ["top"])⟩

/-! ## Claim C1: exclusion is absolute -/

theorem pathBasename_joinSeg (p : AbsPath) (n : String) :
    pathBasename (joinSeg p n) = n := by
  rw [pathBasename, joinSeg]
  simp [List.getLast?_concat]

theorem mem_firstLast {l : List α} {x : α} (h : x ∈ firstLast l) : x ∈ l := by
  rw [firstLast] at h
  split at h
  · exact h
  · rcases List.mem_append.1 h with h | h
    · exact List.mem_of_mem_take h
    · exact List.mem_of_mem_drop h

theorem mem_childFiles_shape {pats : List String} {root : AbsPath}
    {entries : List FSEntry} {x : AbsPath × Int}
    (h : x ∈ childFiles pats root entries) :
    ∃ n mt, x = (joinSeg root n, mt) ∧ FSEntry.file n mt ∈ entries ∧
      is_excluded pats (joinSeg root n) = false := by
  rw [childFiles, List.mem_filterMap] at h
  obtain ⟨e, he, hfe⟩ := h
  cases e with
  | dir n mt cs => simp at hfe
  | file n mt =>
    simp only at hfe
    split at hfe
    · cases hfe
    · rename_i hex
      cases hfe
      exact ⟨n, mt, rfl, he, by simpa using hex⟩

theorem mem_filesOf_shape {cfg : WalkCfg} {root : AbsPath}
    {entries : List FSEntry} {x : AbsPath × Int}
    (h : x ∈ filesOf cfg root entries) :
    ∃ n mt, x = (joinSeg root n, mt) ∧ FSEntry.file n mt ∈ entries ∧
      is_excluded cfg.exclude_patterns (joinSeg root n) = false :=
  mem_childFiles_shape (((stableSortBy_perm _ _).mem_iff).1 h)

/-- The per-entry invariant carried through the walker: the key and every
file of the entry satisfy `P`. -/
def entryOK (P : AbsPath → Prop) (e : AbsPath × List AbsPath) : Prop :=
  P e.1 ∧ ∀ f ∈ e.2, P f

theorem mem_dictSet {d : List (κ × β)} [DecidableEq κ] {k0 : κ} {v : β}
    {e : κ × β} (h : e ∈ dictSet d k0 v) : e ∈ d ∨ e = (k0, v) := by
  induction d with
  | nil =>
    rw [dictSet] at h
    rcases List.mem_singleton.1 h with h
    exact Or.inr h
  | cons hd t ih =>
    by_cases hc : hd.1 = k0
    · rw [dictSet, if_pos hc] at h
      rcases List.mem_cons.1 h with h | h
      · exact Or.inr h
      · exact Or.inl (List.mem_cons_of_mem hd h)
    · rw [dictSet, if_neg hc] at h
      rcases List.mem_cons.1 h with h | h
      · exact Or.inl (h ▸ List.mem_cons_self hd t)
      · rcases ih h with h2 | h2
        · exact Or.inl (List.mem_cons_of_mem hd h2)
        · exact Or.inr h2

theorem mem_dictSetdefault {d : List (κ × List β)} [DecidableEq κ] {k0 : κ}
    {e : κ × List β} (h : e ∈ dictSetdefault d k0) :
    e ∈ d ∨ e = (k0, []) := by
  rw [dictSetdefault] at h
  by_cases hc : dictContains d k0 = true
  · rw [if_pos hc] at h
    exact Or.inl h
  · rw [if_neg hc] at h
    rcases List.mem_append.1 h with h | h
    · exact Or.inl h
    · exact Or.inr (List.mem_singleton.1 h)

theorem dictExtend_preserves {P : κ → Prop} {F : β → Prop}
    [DecidableEq κ] {d : List (κ × List β)} {k0 : κ} {v : List β}
    (hd : ∀ e ∈ d, P e.1 ∧ ∀ f ∈ e.2, F f) (hk : P k0)
    (hv : ∀ f ∈ v, F f) :
    ∀ e ∈ dictExtend d k0 v, P e.1 ∧ ∀ f ∈ e.2, F f := by
  induction d with
  | nil =>
    intro e he
    rw [dictExtend] at he
    rcases List.mem_singleton.1 he with he
    subst he
    exact ⟨hk, hv⟩
  | cons hdp t ih =>
    intro e he
    by_cases hc : hdp.1 = k0
    · rw [dictExtend, if_pos hc] at he
      rcases List.mem_cons.1 he with he | he
      · subst he
        obtain ⟨h1, h2⟩ := hd hdp (List.mem_cons_self hdp t)
        refine ⟨h1, ?_⟩
        intro f hf
        rcases List.mem_append.1 hf with hf | hf
        · exact h2 f hf
        · exact hv f hf
      · exact hd e (List.mem_cons_of_mem hdp he)
    · rw [dictExtend, if_neg hc] at he
      rcases List.mem_cons.1 he with he | he
      · exact hd e (he ▸ List.mem_cons_self hdp t)
      · exact ih (fun e2 he2 => hd e2 (List.mem_cons_of_mem hdp he2)) e he

theorem storeEntry_preserves {cfg : WalkCfg} {P : AbsPath → Prop}
    {root : AbsPath} {acc : Collected} {v : List AbsPath}
    (hacc : ∀ e ∈ acc, entryOK P e) (hroot : P root)
    (hv : ∀ f ∈ v, P f) :
    ∀ e ∈ storeEntry cfg root acc v, entryOK P e := by
  have hacc1 : ∀ e ∈ (if cfg.collect ≠ Collect.filesOnly then
      dictSetdefault acc root else acc), entryOK P e := by
    split
    · intro e he
      rcases mem_dictSetdefault he with h | h
      · exact hacc e h
      · subst h
        exact ⟨hroot, by intro f hf; cases hf⟩
    · exact hacc
  intro e he
  rw [storeEntry] at he
  rcases hcol : cfg.collect <;> rw [hcol] at he <;>
    simp only [hcol, ne_eq, reduceCtorEq, not_false_iff, if_true,
      if_pos] at he hacc1
  case dirsOnly => exact hacc1 e he
  case dirs1stLastFile =>
    rcases mem_dictSet he with h | h
    · exact hacc1 e h
    · subst h
      exact ⟨hroot, fun f hf => hv f (mem_firstLast hf)⟩
  case filesOnly =>
    have hacc2 : ∀ e ∈ acc, entryOK P e := hacc
    exact dictExtend_preserves
      (fun e2 he2 => hacc2 e2 he2) hroot hv e he
  case all =>
    rcases mem_dictSet he with h | h
    · exact hacc1 e h
    · subst h
      exact ⟨hroot, hv⟩

/-- Every key and every file path the walker records satisfies any
property `P` that holds at the visit root and is preserved along
non-excluded child edges. -/
theorem recurse_dir_preserves (cfg : WalkCfg) (P : AbsPath → Prop)
    (hstep : ∀ p n, P p →
      is_excluded cfg.exclude_patterns (joinSeg p n) = false →
      P (joinSeg p n)) :
    ∀ (entries : List FSEntry) (root : AbsPath) (depth : Nat)
      (acc : Collected), P root → (∀ e ∈ acc, entryOK P e) →
      ∀ e ∈ recurse_dir cfg entries root depth acc, entryOK P e := by
  intro entries root depth acc
  induction entries, root, depth, acc using recurse_dir.induct cfg with
  | case1 entries root depth acc subdirs files action hskip =>
    have hskip2 : actionOf cfg root entries depth = VisitAction.skip := hskip
    intro hroot hacc e he
    rw [recurse_dir_eq, if_pos hskip2] at he
    refine storeEntry_preserves hacc hroot ?_ e he
    intro f hf
    rcases List.mem_map.1 hf with ⟨x, hx, hxe⟩
    have hx2 : x ∈ filesOf cfg root entries := by
      by_cases ht : actionOf cfg root entries depth = VisitAction.truncated
      · rw [if_pos ht] at hx
        exact mem_firstLast hx
      · rw [if_neg ht] at hx
        exact hx
    obtain ⟨n, mt, hxeq, _, hex⟩ := mem_filesOf_shape hx2
    rw [← hxe, hxeq]
    exact hstep root n hroot hex
  | case2 entries root depth acc subdirs files action subdirs2 hskip ih =>
    have hskip2 : ¬ actionOf cfg root entries depth = VisitAction.skip := hskip
    intro hroot hacc e he
    rw [recurse_dir_eq, if_neg hskip2] at he
    have hbase : ∀ e2 ∈ storeEntry cfg root acc
        ((if actionOf cfg root entries depth = VisitAction.truncated then
            firstLast (filesOf cfg root entries)
          else filesOf cfg root entries).map (fun f => f.1)),
        entryOK P e2 := by
      refine storeEntry_preserves hacc hroot ?_
      intro f hf
      rcases List.mem_map.1 hf with ⟨x, hx, hxe⟩
      have hx2 : x ∈ filesOf cfg root entries := by
        by_cases ht : actionOf cfg root entries depth = VisitAction.truncated
        · rw [if_pos ht] at hx
          exact mem_firstLast hx
        · rw [if_neg ht] at hx
          exact hx
      obtain ⟨n, mt, hxeq, _, hex⟩ := mem_filesOf_shape hx2
      rw [← hxe, hxeq]
      exact hstep root n hroot hex
    have hfold : ∀ (l : List ((AbsPath × Int) × List FSEntry)),
        (∀ x ∈ l, x ∈ (if actionOf cfg root entries depth =
            VisitAction.truncated then []
          else subdirsOf cfg root entries)) →
        ∀ (b : Collected), (∀ e2 ∈ b, entryOK P e2) →
        ∀ e2 ∈ l.foldl
            (fun a sd => recurse_dir cfg sd.2 sd.1.1 (depth + 1) a) b,
          entryOK P e2 := by
      intro l
      induction l with
      | nil => intro _ b hb e2 he2; exact hb e2 he2
      | cons x xs ihl =>
        intro hsub b hb e2 he2
        rw [List.foldl_cons] at he2
        refine ihl (fun y hy => hsub y (List.mem_cons_of_mem x hy)) _ ?_
          e2 he2
        have hx : x ∈ (if actionOf cfg root entries depth =
            VisitAction.truncated then []
          else subdirsOf cfg root entries) := hsub x (List.mem_cons_self x xs)
        have hx2 : x ∈ subdirsOf cfg root entries := by
          by_cases ht : actionOf cfg root entries depth =
              VisitAction.truncated
          · rw [if_pos ht] at hx; cases hx
          · rw [if_neg ht] at hx; exact hx
        obtain ⟨n, mt, cs, hxeq, _, hex⟩ := mem_subdirsOf_shape hx2
        have hroot2 : P x.1.1 := by
          rw [hxeq]
          exact hstep root n hroot hex
        exact fun e3 he3 => ih b ⟨x, hx⟩ hroot2 hb e3 he3
    exact hfold _ (fun x hx => hx) _ hbase e he

/-- The node names of a tree, to any recursion depth `fuel` (every node
is reached once `fuel` exceeds the tree's depth). -/
def treeNamesF : Nat → DTree → List String
  | 0, _ => []
  | fuel + 1, DTree.node cs =>
      cs.map (fun e => e.1) ++ (cs.map (fun e => treeNamesF fuel e.2)).flatten

theorem treeNamesF_node_nil (fuel : Nat) :
    treeNamesF fuel (DTree.node []) = [] := by
  cases fuel <;> simp [treeNamesF]

theorem mem_treeNamesF_node {fuel : Nat} {cs : List (String × DTree)}
    {x : String} (h : x ∈ treeNamesF (fuel + 1) (DTree.node cs)) :
    (∃ e ∈ cs, x = e.1) ∨ ∃ e ∈ cs, x ∈ treeNamesF fuel e.2 := by
  rw [treeNamesF] at h
  rcases List.mem_append.1 h with h | h
  · rcases List.mem_map.1 h with ⟨e, he, hx⟩
    exact Or.inl ⟨e, he, hx.symm⟩
  · rcases List.mem_flatten.1 h with ⟨l, hl, hx⟩
    rcases List.mem_map.1 hl with ⟨e, he, hel⟩
    exact Or.inr ⟨e, he, hel ▸ hx⟩

theorem treeNamesF_mem_key {fuel : Nat} {cs : List (String × DTree)}
    {e : String × DTree} (h : e ∈ cs) :
    e.1 ∈ treeNamesF (fuel + 1) (DTree.node cs) := by
  rw [treeNamesF]
  exact List.mem_append.2 (Or.inl (List.mem_map.2 ⟨e, h, rfl⟩))

theorem treeNamesF_mem_sub {fuel : Nat} {cs : List (String × DTree)}
    {e : String × DTree} {x : String} (h : e ∈ cs)
    (hx : x ∈ treeNamesF fuel e.2) :
    x ∈ treeNamesF (fuel + 1) (DTree.node cs) := by
  rw [treeNamesF]
  exact List.mem_append.2 (Or.inr (List.mem_flatten.2
    ⟨treeNamesF fuel e.2, List.mem_map.2 ⟨e, h, rfl⟩, hx⟩))

theorem lookupChild_mem {cs : List (String × DTree)} {p : String}
    {sub : DTree} (h : lookupChild cs p = some sub) : (p, sub) ∈ cs := by
  induction cs with
  | nil => simp [lookupChild] at h
  | cons e t ih =>
    by_cases hc : e.1 = p
    · rw [lookupChild, if_pos hc] at h
      injection h with h
      cases e with
      | mk a b =>
        simp only at hc h
        subst hc
        subst h
        exact List.mem_cons_self _ _
    · rw [lookupChild, if_neg hc] at h
      exact List.mem_cons_of_mem e (ih h)

theorem mem_replaceChild {cs : List (String × DTree)} {p : String}
    {v : DTree} {e : String × DTree} (h : e ∈ replaceChild cs p v) :
    e ∈ cs ∨ e = (p, v) := by
  induction cs with
  | nil => simp [replaceChild] at h
  | cons hd t ih =>
    by_cases hc : hd.1 = p
    · rw [replaceChild, if_pos hc] at h
      rcases List.mem_cons.1 h with h | h
      · exact Or.inr (by rw [h, hc])
      · exact Or.inl (List.mem_cons_of_mem hd h)
    · rw [replaceChild, if_neg hc] at h
      rcases List.mem_cons.1 h with h | h
      · exact Or.inl (h ▸ List.mem_cons_self hd t)
      · rcases ih h with h2 | h2
        · exact Or.inl (List.mem_cons_of_mem hd h2)
        · exact Or.inr h2

theorem treeNamesF_insert :
    ∀ (segs : List String) (fuel : Nat) (t : DTree) (x : String),
      x ∈ treeNamesF fuel (treeInsertPath t segs) →
      x ∈ treeNamesF fuel t ∨ x ∈ segs := by
  intro segs
  induction segs with
  | nil =>
    intro fuel t x h
    cases t with
    | node cs => exact Or.inl h
  | cons p rest ih =>
    intro fuel t x h
    cases t with
    | node cs =>
      cases fuel with
      | zero => cases h
      | succ fuel =>
        rw [treeInsertPath] at h
        cases hlk : lookupChild cs p with
        | some sub =>
          rw [hlk] at h
          rcases mem_treeNamesF_node h with ⟨e, he, hx⟩ | ⟨e, he, hx⟩
          · rcases mem_replaceChild he with h2 | h2
            · exact Or.inl (hx ▸ treeNamesF_mem_key h2)
            · subst hx
              rw [h2]
              exact Or.inr (List.mem_cons_self p rest)
          · rcases mem_replaceChild he with h2 | h2
            · exact Or.inl (treeNamesF_mem_sub h2 hx)
            · rw [h2] at hx
              rcases ih fuel sub x hx with h3 | h3
              · exact Or.inl (treeNamesF_mem_sub (lookupChild_mem hlk) h3)
              · exact Or.inr (List.mem_cons_of_mem p h3)
        | none =>
          rw [hlk] at h
          rcases mem_treeNamesF_node h with ⟨e, he, hx⟩ | ⟨e, he, hx⟩
          · rcases List.mem_append.1 he with h2 | h2
            · exact Or.inl (hx ▸ treeNamesF_mem_key h2)
            · rcases List.mem_singleton.1 h2 with h2
              subst hx
              rw [h2]
              exact Or.inr (List.mem_cons_self p rest)
          · rcases List.mem_append.1 he with h2 | h2
            · exact Or.inl (treeNamesF_mem_sub h2 hx)
            · rcases List.mem_singleton.1 h2 with h2
              rw [h2] at hx
              rcases ih fuel (DTree.node []) x hx with h3 | h3
              · rw [treeNamesF_node_nil] at h3
                cases h3
              · exact Or.inr (List.mem_cons_of_mem p h3)

/-- Every node name of the built directory tree is a separator-split
segment of one of the dictionary's keys. -/
theorem build_directory_tree_names (d : List (String × List String)) :
    ∀ (fuel : Nat) (x : String),
      x ∈ treeNamesF fuel (build_directory_tree d) →
      ∃ e ∈ d, x ∈ splitOnSep e.1 := by
  rw [build_directory_tree]
  suffices hgen : ∀ (l : List (String × List String)) (t0 : DTree)
      (fuel : Nat) (x : String),
      x ∈ treeNamesF fuel (l.foldl
        (fun t e => if e.1 = "" then t else treeInsertPath t (splitOnSep e.1))
        t0) →
      x ∈ treeNamesF fuel t0 ∨ ∃ e ∈ l, x ∈ splitOnSep e.1 by
    intro fuel x h
    rcases hgen d (DTree.node []) fuel x h with h2 | h2
    · rw [treeNamesF_node_nil] at h2
      cases h2
    · exact h2
  intro l
  induction l with
  | nil => intro t0 fuel x h; exact Or.inl h
  | cons e t ih =>
    intro t0 fuel x h
    rw [List.foldl_cons] at h
    rcases ih _ fuel x h with h2 | h2
    · by_cases hc : e.1 = ""
      · rw [if_pos hc] at h2
        exact Or.inl h2
      · rw [if_neg hc] at h2
        rcases treeNamesF_insert _ fuel t0 x h2 with h3 | h3
        · exact Or.inl h3
        · exact Or.inr ⟨e, List.mem_cons_self e t, h3⟩
    · obtain ⟨e2, he2, hx⟩ := h2
      exact Or.inr ⟨e2, List.mem_cons_of_mem e he2, hx⟩

/-- Every entry of a successful adjustment is the image of an entry of
the input dictionary under the per-key and per-file converters. -/
theorem adjustLoop_provenance {start : AbsPath} {style : PathStyle}
    {decs : Decorations} {strict : Bool} {label : Option String} :
    ∀ (d : Collected) (acc adj : List (String × List String)),
      adjustLoop start style decs strict label d acc = Except.ok adj →
      ∀ e2 ∈ adj, e2 ∈ acc ∨
        ∃ k fl, (k, fl) ∈ d ∧
          adjustDirKey start style decs strict label k = Except.ok e2.1 ∧
          adjustFilesLoop start style decs strict label fl =
            Except.ok e2.2 := by
  intro d
  induction d with
  | nil =>
    intro acc adj h e2 he2
    rw [adjustLoop] at h
    injection h with h
    exact Or.inl (h ▸ he2)
  | cons hd t ih =>
    intro acc adj h e2 he2
    rw [adjustLoop] at h
    cases hent : adjustEntry start style decs strict label hd.1 hd.2 with
    | error e =>
      rw [hent] at h
      cases h
    | ok kv =>
      rw [hent] at h
      rcases ih _ adj h e2 he2 with h2 | h2
      · rcases mem_dictSet h2 with h3 | h3
        · exact Or.inl h3
        · right
          rw [adjustEntry] at hent
          cases hfl : adjustFilesLoop start style decs strict label hd.2 with
          | error e => rw [hfl] at hent; cases hent
          | ok files =>
            rw [hfl] at hent
            cases hk : adjustDirKey start style decs strict label hd.1 with
            | error e => rw [hk] at hent; cases hent
            | ok key =>
              rw [hk] at hent
              injection hent with hkv
              refine ⟨hd.1, hd.2, List.mem_cons_self hd t, ?_, ?_⟩
              · rw [h3, ← hkv]
                exact hk
              · rw [h3, ← hkv]
                exact hfl
      · obtain ⟨k, fl, hmem, h3, h4⟩ := h2
        exact Or.inr ⟨k, fl, List.mem_cons_of_mem hd hmem, h3, h4⟩

/-- Claim C1: exclusion is absolute.  (1) Every key and every file path
the walker records lies under the start path and none of its segments
beyond the start (in particular its basename, and the name of every
ancestor directory below the start) matches an exclusion pattern — so an
excluded entry, and the whole subtree of an excluded directory, never
appears in the walker's dictionary.  (2) Every entry of the adjusted
dictionary is the image of a walker entry under the key/file converters,
and (3) every tree node name comes from splitting an adjusted key — so
excluded entries reach neither the adjusted map, the tree, nor the output
rendered from them. -/
theorem exclusion_absolute (fs : List FSEntry) (start : AbsPath)
    (pats : List String) (sort_by : SortMode) (collect : Collect)
    (cl clm md prune : Option Int) (style : PathStyle) (decs : Decorations)
    (strict : Bool) (label : Option String) :
    (∀ e ∈ walk_directories fs start pats sort_by collect cl clm md prune,
      entryOK (fun p => start.segs <+: p.segs ∧
        ∀ s ∈ p.segs.drop start.segs.length,
          pats.any (fun pat => fnmatch s pat) = false) e) ∧
    (∀ (d : Collected) (adj : List (String × List String)),
      adjust_paths d start style decs collect strict label = Except.ok adj →
      ∀ e2 ∈ adj, ∃ k fl, (k, fl) ∈ d ∧
        adjustDirKey start style decs strict label k = Except.ok e2.1 ∧
        adjustFilesLoop start style decs strict label fl = Except.ok e2.2) ∧
    (∀ (d2 : List (String × List String)) (fuel : Nat) (x : String),
      x ∈ treeNamesF fuel (build_directory_tree d2) →
      ∃ e ∈ d2, x ∈ splitOnSep e.1) := by
  refine ⟨?_, ?_, ?_⟩
  · rw [walk_directories]
    refine recurse_dir_preserves _ _ ?_ fs start 0 [] ?_ ?_
    · intro p n hp hex
      constructor
      · rw [joinSeg]
        exact hp.1.trans (List.prefix_append p.segs [n])
      · intro s hs
        rw [joinSeg] at hs
        simp only at hs
        rw [List.drop_append_of_le_length hp.1.length_le] at hs
        rcases List.mem_append.1 hs with hs | hs
        · exact hp.2 s hs
        · rcases List.mem_singleton.1 hs with hs
          subst hs
          rw [is_excluded, pathBasename_joinSeg] at hex
          exact hex
    · exact ⟨List.prefix_refl _, by simp⟩
    · intro e he
      cases he
  · intro d adj h e2 he2
    rcases adjustLoop_provenance d [] adj h e2 he2 with h2 | h2
    · cases h2
    · exact h2
  · intro d2 fuel x h
    exact build_directory_tree_names d2 fuel x h

/-- Witness for C1's hypotheses at concrete inputs: a concrete adjusted
dictionary and a concrete tree name. -/
theorem exclusion_absolute_witness :
    (adjust_paths [(AbsPath.mk "C:" ["s"], [AbsPath.mk "C:" ["s", "f"]])]
        (AbsPath.mk "C:" ["s"]) PathStyle.rel
        { unix := false, windows := false, relLeader := false,
          noLeader := false } Collect.all false none =
      Except.ok [(".", ["f"])]) ∧
    (∀ e2 ∈ ([(".", ["f"])] : List (String × List String)),
      ∃ k fl, (k, fl) ∈
          ([(AbsPath.mk "C:" ["s"], [AbsPath.mk "C:" ["s", "f"]])] :
            Collected) ∧
        adjustDirKey (AbsPath.mk "C:" ["s"]) PathStyle.rel
          { unix := false, windows := false, relLeader := false,
            noLeader := false } false none k = Except.ok e2.1 ∧
        adjustFilesLoop (AbsPath.mk "C:" ["s"]) PathStyle.rel
          { unix := false, windows := false, relLeader := false,
            noLeader := false } false none fl = Except.ok e2.2) ∧
    (("a" : String) ∈ treeNamesF 2
        (build_directory_tree [("a\x5cb", [])]) →
      ∃ e ∈ ([("a\x5cb", [])] : List (String × List String)),
        ("a" : String) ∈ splitOnSep e.1) :=
  ⟨by rfl,
    (exclusion_absolute [] (AbsPath.mk "C:" ["s"]) [] SortMode.iname
      Collect.all none none none none PathStyle.rel
      { unix := false, windows := false, relLeader := false,
        noLeader := false } false none).2.1
      [(AbsPath.mk "C:" ["s"], [AbsPath.mk "C:" ["s", "f"]])]
      [(".", ["f"])] (by rfl),
    (exclusion_absolute [] (AbsPath.mk "C:" ["s"]) [] SortMode.iname
      Collect.all none none none none PathStyle.rel
      { unix := false, windows := false, relLeader := false,
        noLeader := false } false none).2.2 [("a\x5cb", [])] 2 "a"⟩

/-! ## Claim C8: distinctness of rendered directory keys -/

/-- The name of a filesystem entry. -/
def entryName : FSEntry → String
  | .file n _ => n
  | .dir n _ _ => n

/-- Well-formedness of a directory listing as a host filesystem
guarantees it: sibling names are distinct and valid, recursively. -/
inductive WFfs : List FSEntry → Prop
  | mk (l : List FSEntry) :
      (l.map entryName).Nodup →
      (∀ e ∈ l, validNameB (entryName e) = true) →
      (∀ n mt cs, FSEntry.dir n mt cs ∈ l → WFfs cs) →
      WFfs l

theorem WFfs.names_nodup {l : List FSEntry} (h : WFfs l) :
    (l.map entryName).Nodup := by
  cases h with
  | mk _ h1 _ _ => exact h1

theorem WFfs.name_valid {l : List FSEntry} (h : WFfs l) :
    ∀ e ∈ l, validNameB (entryName e) = true := by
  cases h with
  | mk _ _ h2 _ => exact h2

theorem WFfs.children {l : List FSEntry} (h : WFfs l) :
    ∀ n mt cs, FSEntry.dir n mt cs ∈ l → WFfs cs := by
  cases h with
  | mk _ _ _ h3 => exact h3

/-- `k` lies (weakly) below `root`: same drive, `root`'s segments are a
prefix. -/
def Rooted (root k : AbsPath) : Prop :=
  root.segs <+: k.segs ∧ k.drive = root.drive

theorem Rooted.refl (root : AbsPath) : Rooted root root :=
  ⟨List.prefix_refl _, rfl⟩

theorem Rooted.of_join {root k : AbsPath} {n : String}
    (h : Rooted (joinSeg root n) k) : Rooted root k :=
  ⟨(List.prefix_append root.segs [n]).trans h.1, h.2⟩

theorem not_rooted_join_self (root : AbsPath) (n : String) :
    ¬ Rooted (joinSeg root n) root := by
  intro h
  have := h.1.length_le
  simp [joinSeg] at this

theorem rooted_join_name_eq {root k : AbsPath} {n1 n2 : String}
    (h1 : Rooted (joinSeg root n1) k) (h2 : Rooted (joinSeg root n2) k) :
    n1 = n2 := by
  have hpre := List.prefix_of_prefix_length_le h1.1 h2.1
    (by simp [joinSeg])
  have hlen : (joinSeg root n1).segs.length = (joinSeg root n2).segs.length := by
    simp [joinSeg]
  have heq := List.IsPrefix.eq_of_length hpre hlen
  have := congrArg (fun l => l.getLast?) heq
  simpa [joinSeg, List.getLast?_concat] using this

/-- `recurse_dir_preserves` with a well-formedness assumption: the step
may additionally use validity of the child's name. -/
theorem recurse_dir_preserves_wf (cfg : WalkCfg) (P : AbsPath → Prop)
    (hstep : ∀ p n, P p → validNameB n = true → P (joinSeg p n)) :
    ∀ (entries : List FSEntry) (root : AbsPath) (depth : Nat)
      (acc : Collected), WFfs entries → P root →
      (∀ e ∈ acc, entryOK P e) →
      ∀ e ∈ recurse_dir cfg entries root depth acc, entryOK P e := by
  intro entries root depth acc
  induction entries, root, depth, acc using recurse_dir.induct cfg with
  | case1 entries root depth acc subdirs files action hskip =>
    have hskip2 : actionOf cfg root entries depth = VisitAction.skip := hskip
    intro hwf hroot hacc e he
    rw [recurse_dir_eq, if_pos hskip2] at he
    refine storeEntry_preserves hacc hroot ?_ e he
    intro f hf
    rcases List.mem_map.1 hf with ⟨x, hx, hxe⟩
    have hx2 : x ∈ filesOf cfg root entries := by
      by_cases ht : actionOf cfg root entries depth = VisitAction.truncated
      · rw [if_pos ht] at hx
        exact mem_firstLast hx
      · rw [if_neg ht] at hx
        exact hx
    obtain ⟨n, mt, hxeq, hment, _⟩ := mem_filesOf_shape hx2
    rw [← hxe, hxeq]
    exact hstep root n hroot (hwf.name_valid _ hment)
  | case2 entries root depth acc subdirs files action subdirs2 hskip ih =>
    have hskip2 : ¬ actionOf cfg root entries depth = VisitAction.skip := hskip
    intro hwf hroot hacc e he
    rw [recurse_dir_eq, if_neg hskip2] at he
    have hbase : ∀ e2 ∈ storeEntry cfg root acc
        ((if actionOf cfg root entries depth = VisitAction.truncated then
            firstLast (filesOf cfg root entries)
          else filesOf cfg root entries).map (fun f => f.1)),
        entryOK P e2 := by
      refine storeEntry_preserves hacc hroot ?_
      intro f hf
      rcases List.mem_map.1 hf with ⟨x, hx, hxe⟩
      have hx2 : x ∈ filesOf cfg root entries := by
        by_cases ht : actionOf cfg root entries depth = VisitAction.truncated
        · rw [if_pos ht] at hx
          exact mem_firstLast hx
        · rw [if_neg ht] at hx
          exact hx
      obtain ⟨n, mt, hxeq, hment, _⟩ := mem_filesOf_shape hx2
      rw [← hxe, hxeq]
      exact hstep root n hroot (hwf.name_valid _ hment)
    have hfold : ∀ (l : List ((AbsPath × Int) × List FSEntry)),
        (∀ x ∈ l, x ∈ (if actionOf cfg root entries depth =
            VisitAction.truncated then []
          else subdirsOf cfg root entries)) →
        ∀ (b : Collected), (∀ e2 ∈ b, entryOK P e2) →
        ∀ e2 ∈ l.foldl
            (fun a sd => recurse_dir cfg sd.2 sd.1.1 (depth + 1) a) b,
          entryOK P e2 := by
      intro l
      induction l with
      | nil => intro _ b hb e2 he2; exact hb e2 he2
      | cons x xs ihl =>
        intro hsub b hb e2 he2
        rw [List.foldl_cons] at he2
        refine ihl (fun y hy => hsub y (List.mem_cons_of_mem x hy)) _ ?_
          e2 he2
        have hx : x ∈ (if actionOf cfg root entries depth =
            VisitAction.truncated then []
          else subdirsOf cfg root entries) := hsub x (List.mem_cons_self x xs)
        have hx2 : x ∈ subdirsOf cfg root entries := by
          by_cases ht : actionOf cfg root entries depth =
              VisitAction.truncated
          · rw [if_pos ht] at hx; cases hx
          · rw [if_neg ht] at hx; exact hx
        obtain ⟨n, mt, cs, hxeq, hment, hex⟩ := mem_subdirsOf_shape hx2
        have hroot2 : P x.1.1 := by
          rw [hxeq]
          exact hstep root n hroot
            (by have := hwf.name_valid _ hment; simpa [entryName] using this)
        have hwf2 : WFfs x.2 := by
          rw [hxeq]
          exact hwf.children n mt cs hment
        exact fun e3 he3 => ih b ⟨x, hx⟩ hwf2 hroot2 hb e3 he3
    exact hfold _ (fun x hx => hx) _ hbase e he

theorem dictContains_iff [DecidableEq κ] {d : List (κ × β)} {k : κ} :
    dictContains d k = true ↔ k ∈ dictKeys d := by
  rw [dictContains, dictKeys]
  simp [List.any_eq_true]

theorem dictKeys_dictSet_eq [DecidableEq κ] {d : List (κ × β)} {k : κ}
    {v : β} (h : k ∉ dictKeys d) :
    dictKeys (dictSet d k v) = dictKeys d ++ [k] ∧
      (dictSet d k v).length = d.length + 1 := by
  induction d with
  | nil => exact ⟨rfl, rfl⟩
  | cons e t ih =>
    have hk1 : ¬ e.1 = k := by
      intro heq
      exact h (by simp [dictKeys, heq])
    have hk2 : k ∉ dictKeys t := by
      intro hmem
      exact h (by simp [dictKeys] at hmem ⊢; exact Or.inr hmem)
    obtain ⟨ih1, ih2⟩ := ih hk2
    constructor
    · rw [dictSet, if_neg hk1]
      simp only [dictKeys, List.map_cons] at ih1 ⊢
      rw [ih1]
      simp
    · rw [dictSet, if_neg hk1]
      simp only [List.length_cons] at ih2 ⊢
      rw [ih2]

theorem dictKeys_dictSet_eq_mem [DecidableEq κ] {d : List (κ × β)} {k : κ}
    {v : β} (h : k ∈ dictKeys d) :
    dictKeys (dictSet d k v) = dictKeys d ∧
      (dictSet d k v).length = d.length := by
  induction d with
  | nil => cases h
  | cons e t ih =>
    by_cases hk1 : e.1 = k
    · rw [dictSet, if_pos hk1]
      constructor
      · simp [dictKeys, hk1]
      · simp
    · have hk2 : k ∈ dictKeys t := by
        simp [dictKeys] at h
        rcases h with h | h
        · exact absurd h.symm hk1
        · simpa [dictKeys] using h
      obtain ⟨ih1, ih2⟩ := ih hk2
      constructor
      · rw [dictSet, if_neg hk1]
        simp only [dictKeys, List.map_cons] at ih1 ⊢
        rw [ih1]
      · rw [dictSet, if_neg hk1]
        simp only [List.length_cons] at ih2 ⊢
        rw [ih2]

theorem dictKeys_dictExtend_eq_not_mem [DecidableEq κ]
    {d : List (κ × List β)} {k : κ} {v : List β} (h : k ∉ dictKeys d) :
    dictKeys (dictExtend d k v) = dictKeys d ++ [k] := by
  induction d with
  | nil => rfl
  | cons e t ih =>
    have hk1 : ¬ e.1 = k := by
      intro heq
      exact h (by simp [dictKeys, heq])
    have hk2 : k ∉ dictKeys t := by
      intro hmem
      exact h (by simp [dictKeys] at hmem ⊢; exact Or.inr hmem)
    rw [dictExtend, if_neg hk1]
    simp only [dictKeys, List.map_cons] at ih ⊢
    rw [ih hk2]
    simp

/-- When the visit root is a fresh key, any collection strategy's store
appends exactly the root key. -/
theorem storeEntry_keys_eq {cfg : WalkCfg} {root : AbsPath}
    {acc : Collected} {v : List AbsPath} (h : root ∉ dictKeys acc) :
    dictKeys (storeEntry cfg root acc v) = dictKeys acc ++ [root] := by
  have hcontains : dictContains acc root = false := by
    rw [Bool.eq_false_iff]
    intro hc
    exact h (dictContains_iff.1 hc)
  have hsd : dictSetdefault acc root = acc ++ [(root, [])] := by
    rw [dictSetdefault, if_neg (by rw [hcontains]; simp)]
  have hsdkeys : dictKeys (dictSetdefault acc root) = dictKeys acc ++ [root] := by
    rw [hsd, dictKeys, List.map_append]
    rfl
  have hmemsd : root ∈ dictKeys (dictSetdefault acc root) := by
    rw [hsdkeys]
    simp
  rw [storeEntry]
  rcases hcol : cfg.collect <;> simp only [hcol, ne_eq, reduceCtorEq,
    not_false_iff, if_true, if_pos, if_neg, not_true_eq_false, if_false]
  case dirsOnly => exact hsdkeys
  case dirs1stLastFile =>
    rw [(dictKeys_dictSet_eq_mem hmemsd).1, hsdkeys]
  case filesOnly =>
    exact dictKeys_dictExtend_eq_not_mem h
  case all =>
    rw [(dictKeys_dictSet_eq_mem hmemsd).1, hsdkeys]

theorem childDirs_names_sublist (pats : List String) (root : AbsPath)
    (entries : List FSEntry) :
    ((childDirs pats root entries).map
      (fun x => pathBasename x.1.1)).Sublist (entries.map entryName) := by
  induction entries with
  | nil => simp [childDirs]
  | cons e t ih =>
    cases e with
    | file n mt =>
      have h1 : childDirs pats root (FSEntry.file n mt :: t) =
          childDirs pats root t := by
        rw [childDirs, childDirs, List.filterMap_cons]
      rw [h1]
      exact ih.cons _
    | dir n mt cs =>
      by_cases hex : is_excluded pats (joinSeg root n) = true
      · have h1 : childDirs pats root (FSEntry.dir n mt cs :: t) =
            childDirs pats root t := by
          rw [childDirs, childDirs, List.filterMap_cons]
          simp [hex]
        rw [h1]
        exact ih.cons _
      · have h1 : childDirs pats root (FSEntry.dir n mt cs :: t) =
            ((joinSeg root n, mt), cs) :: childDirs pats root t := by
          rw [childDirs, childDirs, List.filterMap_cons]
          simp [hex]
        rw [h1, List.map_cons]
        simp only [pathBasename_joinSeg]
        exact ih.cons₂ _

theorem subdirsOf_names_nodup {cfg : WalkCfg} {root : AbsPath}
    {entries : List FSEntry} (hwf : WFfs entries) :
    ((subdirsOf cfg root entries).map
      (fun x => pathBasename x.1.1)).Nodup := by
  have h1 : ((childDirs cfg.exclude_patterns root entries).map
      (fun x => pathBasename x.1.1)).Nodup :=
    hwf.names_nodup.sublist
      (childDirs_names_sublist cfg.exclude_patterns root entries)
  have hperm : ((subdirsOf cfg root entries).map
      (fun x => pathBasename x.1.1)).Perm
      ((childDirs cfg.exclude_patterns root entries).map
        (fun x => pathBasename x.1.1)) :=
    (stableSortBy_perm _ _).map _
  exact h1.perm hperm.symm

/-- Under a well-formed listing, the walker's dictionary has pairwise
distinct keys, and every key added below a visit root lies below it. -/
theorem recurse_dir_keys_nodup (cfg : WalkCfg) :
    ∀ (entries : List FSEntry) (root : AbsPath) (depth : Nat)
      (acc : Collected), WFfs entries →
      (dictKeys acc).Nodup →
      (∀ k ∈ dictKeys acc, ¬ Rooted root k) →
      (dictKeys (recurse_dir cfg entries root depth acc)).Nodup ∧
      ∀ k ∈ dictKeys (recurse_dir cfg entries root depth acc),
        k ∈ dictKeys acc ∨ Rooted root k := by
  intro entries root depth acc
  induction entries, root, depth, acc using recurse_dir.induct cfg with
  | case1 entries root depth acc subdirs files action hskip =>
    have hskip2 : actionOf cfg root entries depth = VisitAction.skip := hskip
    intro hwf hnodup hdisj
    have hroot : root ∉ dictKeys acc := fun hmem =>
      hdisj root hmem (Rooted.refl root)
    rw [recurse_dir_eq, if_pos hskip2]
    rw [storeEntry_keys_eq hroot]
    constructor
    · simp [List.nodup_append, hnodup]
      exact hroot
    · intro k hk
      rcases List.mem_append.1 hk with hk | hk
      · exact Or.inl hk
      · rcases List.mem_singleton.1 hk with hk
        exact Or.inr (hk ▸ Rooted.refl root)
  | case2 entries root depth acc subdirs files action subdirs2 hskip ih =>
    have hskip2 : ¬ actionOf cfg root entries depth = VisitAction.skip := hskip
    intro hwf hnodup hdisj
    have hroot : root ∉ dictKeys acc := fun hmem =>
      hdisj root hmem (Rooted.refl root)
    rw [recurse_dir_eq, if_neg hskip2]
    have hacc2keys : dictKeys (storeEntry cfg root acc
        ((if actionOf cfg root entries depth = VisitAction.truncated then
            firstLast (filesOf cfg root entries)
          else filesOf cfg root entries).map (fun f => f.1))) =
        dictKeys acc ++ [root] := storeEntry_keys_eq hroot
    have hfold : ∀ (l : List ((AbsPath × Int) × List FSEntry)),
        (∀ x ∈ l, x ∈ (if actionOf cfg root entries depth =
            VisitAction.truncated then []
          else subdirsOf cfg root entries)) →
        (l.map (fun x => pathBasename x.1.1)).Nodup →
        ∀ (b : Collected), (dictKeys b).Nodup →
        (∀ k ∈ dictKeys b, k ∈ dictKeys acc ∨ k = root ∨
          ∃ nm, Rooted (joinSeg root nm) k ∧
            nm ∉ l.map (fun x => pathBasename x.1.1)) →
        (dictKeys (l.foldl
          (fun a sd => recurse_dir cfg sd.2 sd.1.1 (depth + 1) a) b)).Nodup ∧
        ∀ k ∈ dictKeys (l.foldl
            (fun a sd => recurse_dir cfg sd.2 sd.1.1 (depth + 1) a) b),
          k ∈ dictKeys acc ∨ k = root ∨
            ∃ nm, Rooted (joinSeg root nm) k := by
      intro l
      induction l with
      | nil =>
        intro _ _ b hb hmem
        refine ⟨hb, ?_⟩
        intro k hk
        rcases hmem k hk with h | h | ⟨nm, h1, _⟩
        · exact Or.inl h
        · exact Or.inr (Or.inl h)
        · exact Or.inr (Or.inr ⟨nm, h1⟩)
      | cons x xs ihl =>
        intro hsub hnames b hb hmem
        rw [List.foldl_cons]
        have hx : x ∈ (if actionOf cfg root entries depth =
            VisitAction.truncated then []
          else subdirsOf cfg root entries) := hsub x (List.mem_cons_self x xs)
        have hx2 : x ∈ subdirsOf cfg root entries := by
          by_cases ht : actionOf cfg root entries depth =
              VisitAction.truncated
          · rw [if_pos ht] at hx; cases hx
          · rw [if_neg ht] at hx; exact hx
        obtain ⟨n, mt, cs, hxeq, hment, hex⟩ := mem_subdirsOf_shape hx2
        have hxname : pathBasename x.1.1 = n := by
          rw [hxeq]
          exact pathBasename_joinSeg root n
        have hxroot : x.1.1 = joinSeg root n := by rw [hxeq]
        have hwf2 : WFfs x.2 := by
          rw [hxeq]
          exact hwf.children n mt cs hment
        have hnames2 := hnames
        rw [List.map_cons, List.nodup_cons] at hnames2
        have hdisj2 : ∀ k ∈ dictKeys b, ¬ Rooted x.1.1 k := by
          intro k hk hrk
          rw [hxroot] at hrk
          rcases hmem k hk with h | h | ⟨nm, h1, h2⟩
          · exact hdisj k h (Rooted.of_join hrk)
          · rw [h] at hrk
            exact not_rooted_join_self root n hrk
          · have : nm = n := rooted_join_name_eq h1 hrk
            subst this
            exact h2 (by rw [List.map_cons, hxname]; exact
              List.mem_cons_self _ _)
        obtain ⟨hnodup2, hmem2⟩ := ih b ⟨x, hx⟩ hwf2 hb hdisj2
        refine ihl (fun y hy => hsub y (List.mem_cons_of_mem x hy))
          hnames2.2 _ hnodup2 ?_
        intro k hk
        rcases hmem2 k hk with h | h
        · rcases hmem k h with h2 | h2 | ⟨nm, h2, h3⟩
          · exact Or.inl h2
          · exact Or.inr (Or.inl h2)
          · refine Or.inr (Or.inr ⟨nm, h2, ?_⟩)
            intro hmemx
            exact h3 (by rw [List.map_cons]; exact
              List.mem_cons_of_mem _ hmemx)
        · refine Or.inr (Or.inr ⟨n, by rw [← hxroot]; exact h, ?_⟩)
          rw [← hxname]
          exact hnames2.1
    have hnames : ((if actionOf cfg root entries depth =
        VisitAction.truncated then []
      else subdirsOf cfg root entries).map
        (fun x => pathBasename x.1.1)).Nodup := by
      by_cases ht : actionOf cfg root entries depth = VisitAction.truncated
      · rw [if_pos ht]; exact List.nodup_nil
      · rw [if_neg ht]; exact subdirsOf_names_nodup hwf
    obtain ⟨h1, h2⟩ := hfold _ (fun x hx => hx) hnames _
      (by rw [hacc2keys]
          simp [List.nodup_append, hnodup]
          exact hroot)
      (by intro k hk
          rw [hacc2keys] at hk
          rcases List.mem_append.1 hk with hk | hk
          · exact Or.inl hk
          · exact Or.inr (Or.inl (List.mem_singleton.1 hk)))
    refine ⟨h1, ?_⟩
    intro k hk
    rcases h2 k hk with h | h | ⟨nm, h⟩
    · exact Or.inl h
    · exact Or.inr (h ▸ Rooted.refl root)
    · exact Or.inr (Rooted.of_join h)

/-- A good walk key relative to the start path: same drive, start's
segments as a prefix, and valid names beyond them. -/
def GoodKey (start k : AbsPath) : Prop :=
  k.drive = start.drive ∧
  ∃ tail, k.segs = start.segs ++ tail ∧ ∀ s ∈ tail, validNameB s = true

theorem validNameB_spec {s : String} (h : validNameB s = true) :
    s ≠ "" ∧ '\x5c' ∉ s.data ∧ '/' ∉ s.data ∧ s ≠ "." ∧ s ≠ ".." := by
  rw [validNameB] at h
  simp only [Bool.and_eq_true, Bool.not_eq_true', decide_eq_true_eq] at h
  obtain ⟨⟨⟨⟨h1, h2⟩, h3⟩, h4⟩, h5⟩ := h
  refine ⟨h1, ?_, ?_, h4, h5⟩
  · intro hmem
    have hc : s.data.contains '\x5c' = true :=
      List.contains_iff_exists_mem_beq.mpr ⟨'\x5c', hmem, by decide⟩
    rw [h2] at hc
    exact Bool.false_ne_true hc
  · intro hmem
    have hc : s.data.contains '/' = true :=
      List.contains_iff_exists_mem_beq.mpr ⟨'/', hmem, by decide⟩
    rw [h3] at hc
    exact Bool.false_ne_true hc

theorem str_append_left_cancel {a b c : String} (h : a ++ b = a ++ c) :
    b = c := by
  have hd := congrArg String.data h
  rw [String.data_append, String.data_append] at hd
  exact String.ext (List.append_cancel_left hd)

theorem joinSepStr_cons_cons (x y : String) (t : List String) :
    (joinSepStr (x :: y :: t)).data =
      x.data ++ '\x5c' :: (joinSepStr (y :: t)).data := by
  rw [joinSepStr]
  rw [String.data_append, String.data_append, List.append_assoc]
  rfl

theorem sep_split_inj :
    ∀ (a1 a2 b1 b2 : List Char), '\x5c' ∉ a1 → '\x5c' ∉ a2 →
      a1 ++ '\x5c' :: b1 = a2 ++ '\x5c' :: b2 → a1 = a2 ∧ b1 = b2 := by
  intro a1
  induction a1 with
  | nil =>
    intro a2 b1 b2 _ h2 h
    cases a2 with
    | nil => simp at h; exact ⟨rfl, h⟩
    | cons c t =>
      simp at h
      exfalso
      exact h2 (by rw [← h.1]; exact List.mem_cons_self _ _)
  | cons c t ih =>
    intro a2 b1 b2 h1 h2 h
    cases a2 with
    | nil =>
      simp at h
      exfalso
      exact h1 (by rw [h.1]; exact List.mem_cons_self _ _)
    | cons c2 t2 =>
      simp only [List.cons_append, List.cons.injEq] at h
      obtain ⟨hc, ht⟩ := h
      have h1t : '\x5c' ∉ t := fun hm => h1 (List.mem_cons_of_mem c hm)
      have h2t : '\x5c' ∉ t2 := fun hm => h2 (List.mem_cons_of_mem c2 hm)
      obtain ⟨hta, htb⟩ := ih t2 b1 b2 h1t h2t ht
      exact ⟨by rw [hc, hta], htb⟩

theorem joinSepStr_no_slash {l : List String}
    (h : ∀ s ∈ l, '/' ∉ s.data) : '/' ∉ (joinSepStr l).data := by
  cases l with
  | nil => simp [joinSepStr]
  | cons x t =>
    induction t generalizing x with
    | nil => exact h x (List.mem_cons_self x [])
    | cons y t2 ih =>
      rw [joinSepStr_cons_cons]
      intro hmem
      rcases List.mem_append.1 hmem with hm | hm
      · exact h x (List.mem_cons_self _ _) hm
      · rcases List.mem_cons.1 hm with hm | hm
        · exact absurd hm.symm (by decide)
        · exact ih y (fun s hs => h s (List.mem_cons_of_mem x hs)) hm

theorem joinSepStr_inj :
    ∀ (l1 l2 : List String),
      (∀ s ∈ l1, s ≠ "" ∧ '\x5c' ∉ s.data) →
      (∀ s ∈ l2, s ≠ "" ∧ '\x5c' ∉ s.data) →
      joinSepStr l1 = joinSepStr l2 → l1 = l2 := by
  intro l1
  induction l1 with
  | nil =>
    intro l2 _ h2 h
    cases l2 with
    | nil => rfl
    | cons x t =>
      exfalso
      cases t with
      | nil =>
        exact (h2 x (List.mem_cons_self x [])).1 h.symm
      | cons y t2 =>
        have hd := congrArg String.data h
        rw [joinSepStr_cons_cons] at hd
        have : ('\x5c' : Char) ∈ ("" : String).data := by
          rw [show (joinSepStr []) = "" from rfl] at hd
          rw [hd]
          exact List.mem_append.2 (Or.inr (List.mem_cons_self _ _))
        simp at this
  | cons x t ih =>
    intro l2 h1 h2 h
    cases l2 with
    | nil =>
      exfalso
      cases t with
      | nil =>
        exact (h1 x (List.mem_cons_self x [])).1 h
      | cons y t2 =>
        have hd := congrArg String.data h
        rw [joinSepStr_cons_cons] at hd
        have : ('\x5c' : Char) ∈ ("" : String).data := by
          rw [show (joinSepStr []) = "" from rfl] at hd
          rw [← hd]
          exact List.mem_append.2 (Or.inr (List.mem_cons_self _ _))
        simp at this
    | cons x2 t2 =>
      cases t with
      | nil =>
        cases t2 with
        | nil =>
          rw [joinSepStr, joinSepStr] at h
          rw [h]
        | cons y2 t3 =>
          exfalso
          have hd := congrArg String.data h
          rw [joinSepStr] at hd
          rw [joinSepStr_cons_cons] at hd
          have hmem : ('\x5c' : Char) ∈ x.data := by
            rw [hd]
            exact List.mem_append.2 (Or.inr (List.mem_cons_self _ _))
          exact (h1 x (List.mem_cons_self _ _)).2 hmem
      | cons y t3 =>
        cases t2 with
        | nil =>
          exfalso
          have hd := congrArg String.data h
          rw [joinSepStr_cons_cons] at hd
          rw [show joinSepStr [x2] = x2 from rfl] at hd
          have hmem : ('\x5c' : Char) ∈ x2.data := by
            rw [← hd]
            exact List.mem_append.2 (Or.inr (List.mem_cons_self _ _))
          exact (h2 x2 (List.mem_cons_self _ _)).2 hmem
        | cons y2 t4 =>
          have hd := congrArg String.data h
          rw [joinSepStr_cons_cons, joinSepStr_cons_cons] at hd
          obtain ⟨hx, hrest⟩ := sep_split_inj _ _ _ _
            (h1 x (List.mem_cons_self _ _)).2
            (h2 x2 (List.mem_cons_self _ _)).2 hd
          have hxeq : x = x2 := String.ext hx
          have hteq : (y :: t3) = (y2 :: t4) :=
            ih (y2 :: t4)
              (fun s hs => h1 s (List.mem_cons_of_mem x hs))
              (fun s hs => h2 s (List.mem_cons_of_mem x2 hs))
              (String.ext hrest)
          rw [hxeq, hteq]

theorem joinSepStr_ne_empty {l : List String} (hne : l ≠ [])
    (h : ∀ s ∈ l, s ≠ "" ∧ '\x5c' ∉ s.data) :
    (joinSepStr l).data ≠ [] := by
  cases l with
  | nil => exact absurd rfl hne
  | cons x t =>
    cases t with
    | nil =>
      rw [show joinSepStr [x] = x from rfl]
      intro hd
      exact (h x (List.mem_cons_self _ _)).1 (String.ext hd)
    | cons y t2 =>
      rw [joinSepStr_cons_cons]
      intro hd
      have hx : x.data = [] := by
        cases hx : x.data with
        | nil => rfl
        | cons c cs => rw [hx] at hd; simp at hd
      exact (h x (List.mem_cons_self _ _)).1 (String.ext hx)

theorem joinSepStr_ne_dot {l : List String} (hne : l ≠ [])
    (h : ∀ s ∈ l, validNameB s = true) : joinSepStr l ≠ "." := by
  cases l with
  | nil => exact absurd rfl hne
  | cons x t =>
    cases t with
    | nil =>
      rw [show joinSepStr [x] = x from rfl]
      exact (validNameB_spec (h x (List.mem_cons_self _ _))).2.2.2.1
    | cons y t2 =>
      intro heq
      have hd := congrArg String.data heq
      rw [joinSepStr_cons_cons] at hd
      have hdot : ("." : String).data = ['.'] := rfl
      rw [hdot] at hd
      have hx := (validNameB_spec (h x (List.mem_cons_self _ _))).1
      cases hxd : x.data with
      | nil => exact hx (String.ext hxd)
      | cons c cs =>
        rw [hxd] at hd
        simp at hd

theorem commonPrefixLen_append_left :
    ∀ (l t : List String), commonPrefixLen (l ++ t) l = l.length := by
  intro l t
  induction l with
  | nil => cases t <;> rfl
  | cons a l2 ih => simp [commonPrefixLen, ih]

theorem relpathStr_rooted {start k : AbsPath} {tail : List String}
    (h : k.segs = start.segs ++ tail) :
    relpathStr k start =
      if tail = [] then "." else joinSepStr tail := by
  rw [relpathStr, h, commonPrefixLen_append_left]
  simp [List.drop_left]

theorem joinSepStr_cons_len {x : String} {L1 L2 : List String}
    (h : joinSepStr (x :: L1) = joinSepStr (x :: L2)) :
    joinSepStr L1 = joinSepStr L2 := by
  cases L1 with
  | nil =>
    cases L2 with
    | nil => rfl
    | cons y t =>
      exfalso
      have hd := congrArg String.data h
      rw [joinSepStr_cons_cons] at hd
      rw [show joinSepStr [x] = x from rfl] at hd
      have hlen := congrArg List.length hd
      simp at hlen
  | cons y t =>
    cases L2 with
    | nil =>
      exfalso
      have hd := congrArg String.data h
      rw [joinSepStr_cons_cons] at hd
      rw [show joinSepStr [x] = x from rfl] at hd
      have hlen := congrArg List.length hd
      simp at hlen
    | cons y2 t2 =>
      have hd := congrArg String.data h
      rw [joinSepStr_cons_cons, joinSepStr_cons_cons] at hd
      have h2 := List.append_cancel_left hd
      simp only [List.cons.injEq, true_and] at h2
      exact String.ext h2

theorem joinSepStr_append_inj {t1 t2 : List String}
    (h1 : ∀ s ∈ t1, validNameB s = true)
    (h2 : ∀ s ∈ t2, validNameB s = true) :
    ∀ S : List String, joinSepStr (S ++ t1) = joinSepStr (S ++ t2) →
      t1 = t2 := by
  intro S
  induction S with
  | nil =>
    intro h
    refine joinSepStr_inj t1 t2 ?_ ?_ h
    · intro s hs
      exact ⟨(validNameB_spec (h1 s hs)).1, (validNameB_spec (h1 s hs)).2.1⟩
    · intro s hs
      exact ⟨(validNameB_spec (h2 s hs)).1, (validNameB_spec (h2 s hs)).2.1⟩
  | cons x S2 ih =>
    intro h
    exact ih (joinSepStr_cons_len h)

theorem joinSepStr_head_not_sep {l : List String} (hne : l ≠ [])
    (h : ∀ s ∈ l, validNameB s = true) :
    strHeadIsSep (joinSepStr l) = false := by
  cases l with
  | nil => exact absurd rfl hne
  | cons x t =>
    obtain ⟨hxe, hxs, hxl, -, -⟩ := validNameB_spec (h x (List.mem_cons_self _ _))
    cases hxd : x.data with
    | nil => exact absurd (String.ext hxd) hxe
    | cons c cs =>
      have hc5 : c ≠ '\x5c' := fun hc => hxs (hc ▸ (hxd ▸ List.mem_cons_self c cs))
      have hcs : c ≠ '/' := fun hc => hxl (hc ▸ (hxd ▸ List.mem_cons_self c cs))
      cases t with
      | nil =>
        rw [show joinSepStr [x] = x from rfl, strHeadIsSep, hxd]
        simp [hc5, hcs]
      | cons y t2 =>
        have hdata : (joinSepStr (x :: y :: t2)).data =
            c :: (cs ++ '\x5c' :: (joinSepStr (y :: t2)).data) := by
          rw [joinSepStr_cons_cons, hxd]
          rfl
        rw [strHeadIsSep, hdata]
        simp [hc5, hcs]

/-- The character-level slash rewrite that `apply_decorations` performs
after the leader stage (identity when neither direction is forced). -/
def slashMap (d : Decorations) (c : Char) : Char :=
  if d.unix then (if c = '\x5c' then '/' else c)
  else if d.windows then (if c = '/' then '\x5c' else c)
  else c

theorem apply_decorations_plain {d : Decorations} (hno : d.noLeader = false)
    (hrel : d.relLeader = false) (s : String) :
    (apply_decorations s d).data = s.data.map (slashMap d) := by
  by_cases hu : d.unix = true
  · simp [apply_decorations, hno, hrel, hu, replaceChar, slashMap]
  · by_cases hw : d.windows = true
    · simp [apply_decorations, hno, hrel, hu, hw, replaceChar, slashMap]
    · simp [apply_decorations, hno, hrel, hu, hw]
      rw [show slashMap d = fun c => c from
        funext fun c => by simp [slashMap, hu, hw]]
      rw [List.map_id']

theorem slashMap_inj (d : Decorations) {a b : Char}
    (ha : a ≠ '/') (hb : b ≠ '/') (h : slashMap d a = slashMap d b) :
    a = b := by
  rw [slashMap, slashMap] at h
  by_cases hu : d.unix = true
  · rw [if_pos hu, if_pos hu] at h
    by_cases ha5 : a = '\x5c' <;> by_cases hb5 : b = '\x5c'
    · rw [ha5, hb5]
    · rw [if_pos ha5, if_neg hb5] at h
      exact absurd h.symm hb
    · rw [if_neg ha5, if_pos hb5] at h
      exact absurd h ha
    · rw [if_neg ha5, if_neg hb5] at h
      exact h
  · rw [if_neg hu, if_neg hu] at h
    by_cases hw : d.windows = true
    · rw [if_pos hw, if_pos hw, if_neg ha, if_neg hb] at h
      exact h
    · rw [if_neg hw, if_neg hw] at h
      exact h

theorem map_inj_on {f : Char → Char} :
    ∀ (l1 l2 : List Char),
      (∀ a ∈ l1, ∀ b ∈ l2, f a = f b → a = b) →
      l1.map f = l2.map f → l1 = l2 := by
  intro l1
  induction l1 with
  | nil =>
    intro l2 _ h
    cases l2 with
    | nil => rfl
    | cons b t => simp at h
  | cons a t ih =>
    intro l2 hinj h
    cases l2 with
    | nil => simp at h
    | cons b t2 =>
      simp only [List.map_cons, List.cons.injEq] at h
      have hab : a = b :=
        hinj a (List.mem_cons_self _ _) b (List.mem_cons_self _ _) h.1
      have ht : t = t2 := ih t2
        (fun x hx y hy => hinj x (List.mem_cons_of_mem _ hx)
          y (List.mem_cons_of_mem _ hy)) h.2
      rw [hab, ht]

theorem apply_decorations_inj {d : Decorations} (hno : d.noLeader = false)
    (hrel : d.relLeader = false) {s1 s2 : String}
    (h1 : '/' ∉ s1.data) (h2 : '/' ∉ s2.data)
    (h : apply_decorations s1 d = apply_decorations s2 d) : s1 = s2 := by
  have hd := congrArg String.data h
  rw [apply_decorations_plain hno hrel, apply_decorations_plain hno hrel] at hd
  refine String.ext (map_inj_on _ _ ?_ hd)
  intro a hma b hmb hfe
  exact slashMap_inj d (fun hc => h1 (hc ▸ hma)) (fun hc => h2 (hc ▸ hmb)) hfe

theorem GoodKey.same {start k : AbsPath} (h : GoodKey start k) :
    sameDrive k start = true := by
  rw [sameDrive, h.1]
  simp

/-- The string `adjustDirKey` renders for a same-drive directory key
(the successful branch of the per-style rewrite). -/
def adjustedKeyStr (start : AbsPath) (style : PathStyle) (decs : Decorations)
    (base_label : Option String) (k : AbsPath) : String :=
  match style with
  | .filesOnly => pathToString k
  | .full => pathToString k
  | .rel =>
      if sameDrive k start then apply_decorations (relpathStr k start) decs
      else pathToString k
  | .relBase =>
      if sameDrive k start then
        if relpathStr k start = "." then
          apply_decorations (labelOf base_label start) decs
        else
          apply_decorations (ntJoin (labelOf base_label start)
            (relpathStr k start)) decs
      else pathToString k

theorem adjustDirKey_eq_of_same (start : AbsPath) (style : PathStyle)
    (decs : Decorations) (strict : Bool) (label : Option String)
    (k : AbsPath) (h : sameDrive k start = true) :
    adjustDirKey start style decs strict label k =
      Except.ok (adjustedKeyStr start style decs label k) := by
  cases style <;> simp [adjustDirKey, adjustedKeyStr, h]

theorem adjustFilePath_ok_of_same (start : AbsPath) (style : PathStyle)
    (decs : Decorations) (strict : Bool) (label : Option String)
    (f : AbsPath) (h : sameDrive f start = true) :
    ∃ s, adjustFilePath start style decs strict label f = Except.ok s := by
  rw [adjustFilePath.eq_def]
  rw [if_neg (by simp [h])]
  exact ⟨_, rfl⟩

theorem adjustFilesLoop_ok_of_same (start : AbsPath) (style : PathStyle)
    (decs : Decorations) (strict : Bool) (label : Option String)
    (fl : List AbsPath) (h : ∀ f ∈ fl, sameDrive f start = true) :
    ∃ v, adjustFilesLoop start style decs strict label fl = Except.ok v := by
  induction fl with
  | nil => exact ⟨[], rfl⟩
  | cons g t ih =>
    obtain ⟨s, hs⟩ := adjustFilePath_ok_of_same start style decs strict label g
      (h g (List.mem_cons_self _ _))
    obtain ⟨v, hv⟩ := ih (fun f hf => h f (List.mem_cons_of_mem _ hf))
    exact ⟨s :: v, by rw [adjustFilesLoop, hs, hv]⟩

theorem tail_no_slash {t : List String}
    (h : ∀ s ∈ t, validNameB s = true) : '/' ∉ (joinSepStr t).data :=
  joinSepStr_no_slash (fun s hs => (validNameB_spec (h s hs)).2.2.1)

theorem relStr_no_slash {t : List String}
    (h : ∀ s ∈ t, validNameB s = true) :
    '/' ∉ (if t = [] then "." else joinSepStr t).data := by
  by_cases ht : t = []
  · rw [if_pos ht]
    decide
  · rw [if_neg ht]
    exact tail_no_slash h

theorem relStr_inj {t1 t2 : List String}
    (h1 : ∀ s ∈ t1, validNameB s = true)
    (h2 : ∀ s ∈ t2, validNameB s = true)
    (h : (if t1 = [] then "." else joinSepStr t1) =
         (if t2 = [] then "." else joinSepStr t2)) : t1 = t2 := by
  by_cases ht1 : t1 = [] <;> by_cases ht2 : t2 = []
  · rw [ht1, ht2]
  · rw [if_pos ht1, if_neg ht2] at h
    exact absurd h.symm (joinSepStr_ne_dot ht2 h2)
  · rw [if_neg ht1, if_pos ht2] at h
    exact absurd h (joinSepStr_ne_dot ht1 h1)
  · rw [if_neg ht1, if_neg ht2] at h
    exact joinSepStr_append_inj h1 h2 [] h

/-- The prefix `ntpath.join` puts before a non-rooted second component,
determined by the first component alone. -/
def labelPre (a : String) : String :=
  if a = "" then "" else if strLastIsSep a then a else a ++ sepS

theorem ntJoin_eq_pre {a r : String} (h : strHeadIsSep r = false) :
    ntJoin a r = labelPre a ++ r := by
  rw [ntJoin, labelPre, if_neg (by simp [h])]
  by_cases ha : a = ""
  · rw [if_pos ha, if_pos ha]
    exact String.ext rfl
  · rw [if_neg ha, if_neg ha]
    by_cases hl : strLastIsSep a = true
    · rw [if_pos hl, if_pos hl]
    · rw [if_neg hl, if_neg hl]

theorem joinSepStr_data_len_pos {t : List String} (ht : t ≠ [])
    (hv : ∀ s ∈ t, validNameB s = true) :
    1 ≤ (joinSepStr t).data.length := by
  have hne0 : (joinSepStr t).data ≠ [] :=
    joinSepStr_ne_empty ht (fun s hs =>
      ⟨(validNameB_spec (hv s hs)).1, (validNameB_spec (hv s hs)).2.1⟩)
  cases hvd : (joinSepStr t).data with
  | nil => exact absurd hvd hne0
  | cons c cs => simp

theorem relBase_len_clash {decs : Decorations} (hno : decs.noLeader = false)
    (hrel : decs.relLeader = false) {P : String} {t : List String}
    (ht : t ≠ []) (hv : ∀ s ∈ t, validNameB s = true) :
    apply_decorations P decs ≠
      apply_decorations (labelPre P ++ joinSepStr t) decs := by
  intro h
  have hr2 := joinSepStr_data_len_pos ht hv
  have hlen := congrArg (fun s => s.data.length) h
  simp only [apply_decorations_plain hno hrel, List.length_map,
    String.data_append, List.length_append] at hlen
  rw [labelPre] at hlen
  by_cases hp : P = ""
  · rw [if_pos hp, hp] at hlen
    have h0 : ("" : String).data.length = 0 := rfl
    rw [h0] at hlen
    omega
  · rw [if_neg hp] at hlen
    by_cases hls : strLastIsSep P = true
    · rw [if_pos hls] at hlen
      omega
    · rw [if_neg hls, String.data_append, List.length_append] at hlen
      have h1 : sepS.data.length = 1 := rfl
      rw [h1] at hlen
      omega

/-- Distinct good keys of one walk render to distinct strings under the
styles (and decoration restrictions) of the amended claim. -/
theorem adjustedKeyStr_inj {start : AbsPath} {style : PathStyle}
    {decs : Decorations} {label : Option String}
    (hstyle : style = PathStyle.full ∨
      ((style = PathStyle.rel ∨ style = PathStyle.relBase) ∧
        decs.noLeader = false ∧ decs.relLeader = false))
    {k1 k2 : AbsPath} (g1 : GoodKey start k1) (g2 : GoodKey start k2)
    (hne : k1 ≠ k2) :
    adjustedKeyStr start style decs label k1 ≠
      adjustedKeyStr start style decs label k2 := by
  have hsame1 : sameDrive k1 start = true := g1.same
  have hsame2 : sameDrive k2 start = true := g2.same
  obtain ⟨hd1, t1, hs1, hv1⟩ := g1
  obtain ⟨hd2, t2, hs2, hv2⟩ := g2
  have htne : t1 ≠ t2 := by
    intro he
    apply hne
    cases k1 with
    | mk kd1 ks1 =>
      cases k2 with
      | mk kd2 ks2 =>
        simp only at hd1 hd2 hs1 hs2
        rw [AbsPath.mk.injEq]
        exact ⟨hd1.trans hd2.symm, by rw [hs1, hs2, he]⟩
  rcases hstyle with hf | ⟨hrb, hno, hrel⟩
  · subst hf
    intro h
    have h2 : pathToString k1 = pathToString k2 := h
    rw [pathToString, pathToString, hd1, hd2] at h2
    have h3 := str_append_left_cancel h2
    rw [hs1, hs2] at h3
    exact htne (joinSepStr_append_inj hv1 hv2 start.segs h3)
  · rcases hrb with hr | hr
    · subst hr
      intro h
      simp only [adjustedKeyStr, hsame1, hsame2, if_true] at h
      rw [relpathStr_rooted hs1, relpathStr_rooted hs2] at h
      exact htne (relStr_inj hv1 hv2
        (apply_decorations_inj hno hrel (relStr_no_slash hv1)
          (relStr_no_slash hv2) h))
    · subst hr
      intro h
      simp only [adjustedKeyStr, hsame1, hsame2, if_true] at h
      rw [relpathStr_rooted hs1, relpathStr_rooted hs2] at h
      by_cases ht1 : t1 = [] <;> by_cases ht2 : t2 = []
      · exact htne (ht1.trans ht2.symm)
      · rw [if_pos ht1, if_neg ht2, if_pos rfl,
          if_neg (joinSepStr_ne_dot ht2 hv2),
          ntJoin_eq_pre (joinSepStr_head_not_sep ht2 hv2)] at h
        exact relBase_len_clash hno hrel ht2 hv2 h
      · rw [if_pos ht2, if_neg ht1, if_pos rfl,
          if_neg (joinSepStr_ne_dot ht1 hv1),
          ntJoin_eq_pre (joinSepStr_head_not_sep ht1 hv1)] at h
        exact relBase_len_clash hno hrel ht1 hv1 h.symm
      · rw [if_neg ht1, if_neg ht2,
          if_neg (joinSepStr_ne_dot ht1 hv1),
          if_neg (joinSepStr_ne_dot ht2 hv2),
          ntJoin_eq_pre (joinSepStr_head_not_sep ht1 hv1),
          ntJoin_eq_pre (joinSepStr_head_not_sep ht2 hv2)] at h
        have hdj := congrArg String.data h
        rw [apply_decorations_plain hno hrel,
          apply_decorations_plain hno hrel, String.data_append,
          String.data_append, List.map_append, List.map_append] at hdj
        have hc := List.append_cancel_left hdj
        have hjoin : joinSepStr t1 = joinSepStr t2 :=
          String.ext (map_inj_on _ _ (fun a hma b hmb hfe =>
            slashMap_inj decs (fun hc2 => tail_no_slash hv1 (hc2 ▸ hma))
              (fun hc2 => tail_no_slash hv2 (hc2 ▸ hmb)) hfe) hc)
        exact htne (joinSepStr_append_inj hv1 hv2 [] hjoin)

theorem adjustLoop_len (start : AbsPath) (style : PathStyle)
    (decs : Decorations) (strict : Bool) (label : Option String) :
    ∀ (d : Collected) (acc : List (String × List String)),
      (∀ e ∈ d, sameDrive e.1 start = true ∧
        ∀ f ∈ e.2, sameDrive f start = true) →
      (d.map (fun e => adjustedKeyStr start style decs label e.1)).Nodup →
      (∀ e ∈ d, adjustedKeyStr start style decs label e.1 ∉ dictKeys acc) →
      ∃ out, adjustLoop start style decs strict label d acc = Except.ok out ∧
        out.length = acc.length + d.length := by
  intro d
  induction d with
  | nil =>
    intro acc _ _ _
    exact ⟨acc, rfl, by simp⟩
  | cons e t ih =>
    intro acc hall hnodup hfresh
    obtain ⟨ek, ev⟩ := e
    obtain ⟨hs, hf⟩ := hall (ek, ev) (List.mem_cons_self _ _)
    obtain ⟨v, hv⟩ := adjustFilesLoop_ok_of_same start style decs strict label
      ev hf
    have hkey := adjustDirKey_eq_of_same start style decs strict label ek hs
    have hentry : adjustEntry start style decs strict label ek ev =
        Except.ok (adjustedKeyStr start style decs label ek, v) := by
      rw [adjustEntry, hv, hkey]
    have hknotacc : adjustedKeyStr start style decs label ek ∉ dictKeys acc :=
      hfresh (ek, ev) (List.mem_cons_self _ _)
    have hkeys : dictKeys (dictSet acc
          (adjustedKeyStr start style decs label ek) v) =
        dictKeys acc ++ [adjustedKeyStr start style decs label ek] ∧
        (dictSet acc (adjustedKeyStr start style decs label ek) v).length =
          acc.length + 1 := dictKeys_dictSet_eq hknotacc
    rw [List.map_cons, List.nodup_cons] at hnodup
    have hnext : ∀ e2 ∈ t, adjustedKeyStr start style decs label e2.1 ∉
        dictKeys (dictSet acc (adjustedKeyStr start style decs label ek) v) := by
      intro e2 he2 hmem
      rw [hkeys.1] at hmem
      rcases List.mem_append.1 hmem with hm | hm
      · exact hfresh e2 (List.mem_cons_of_mem _ he2) hm
      · rcases List.mem_singleton.1 hm with hm
        exact hnodup.1 (hm ▸ List.mem_map.2 ⟨e2, he2, rfl⟩)
    obtain ⟨out, hout, hlen⟩ := ih
      (dictSet acc (adjustedKeyStr start style decs label ek) v)
      (fun e2 he2 => hall e2 (List.mem_cons_of_mem _ he2))
      hnodup.2 hnext
    refine ⟨out, ?_, ?_⟩
    · rw [adjustLoop, hentry]
      exact hout
    · rw [hlen, hkeys.2, List.length_cons]
      omega

theorem goodKey_start (start : AbsPath) : GoodKey start start :=
  ⟨rfl, [], (List.append_nil _).symm, fun s hs => absurd hs (List.not_mem_nil s)⟩

theorem goodKey_step {start p : AbsPath} {n : String} (hp : GoodKey start p)
    (hn : validNameB n = true) : GoodKey start (joinSeg p n) := by
  obtain ⟨hd, t, hs, hv⟩ := hp
  refine ⟨hd, t ++ [n], ?_, ?_⟩
  · show p.segs ++ [n] = start.segs ++ (t ++ [n])
    rw [hs, List.append_assoc]
  · intro s hsm
    rcases List.mem_append.1 hsm with hm | hm
    · exact hv s hm
    · rw [List.mem_singleton.1 hm]
      exact hn

/-- Claim C8 (amended): for path style `full` (any decorations), and for
styles `rel` and `rel-base` when neither the `no-leader` nor the
`rel-leader` decoration is enabled: on a well-formed filesystem the
distinct absolute directories of one walk are mapped by the path adjuster
to distinct rendered keys, so `adjust_paths` succeeds and the adjusted map
has exactly as many entries as the walker's map.  (The original claim's
"for any decoration set" fails for `rel`/`rel-base`: see the
counterexample.) -/
theorem adjust_paths_key_count (fs : List FSEntry) (start : AbsPath)
    (pats : List String) (sortBy : SortMode) (collect : Collect)
    (cl clm md prune : Option Int) (style : PathStyle) (decs : Decorations)
    (strict : Bool) (label : Option String) (hwf : WFfs fs)
    (hstyle : style = PathStyle.full ∨
      ((style = PathStyle.rel ∨ style = PathStyle.relBase) ∧
        decs.noLeader = false ∧ decs.relLeader = false)) :
    ∃ adj,
      adjust_paths
        (walk_directories fs start pats sortBy collect cl clm md prune)
        start style decs collect strict label = Except.ok adj ∧
      adj.length =
        (walk_directories fs start pats sortBy collect cl clm md prune).length := by
  have hgood : ∀ e ∈ walk_directories fs start pats sortBy collect cl clm md prune,
      entryOK (GoodKey start) e := fun e he =>
    recurse_dir_preserves_wf ⟨pats, sortBy, collect, md, prune⟩ (GoodKey start)
      (fun p n hp hn => goodKey_step hp hn) fs start 0 [] hwf
      (goodKey_start start) (fun e2 he2 => absurd he2 (List.not_mem_nil e2)) e he
  have hnodup : (dictKeys (walk_directories fs start pats sortBy collect cl
      clm md prune)).Nodup :=
    (recurse_dir_keys_nodup ⟨pats, sortBy, collect, md, prune⟩ fs start 0 []
      hwf (by simp [dictKeys]) (by intro k hk; simp [dictKeys] at hk)).1
  generalize hW : walk_directories fs start pats sortBy collect cl clm md prune
    = W at hgood hnodup ⊢
  have hall : ∀ e ∈ W, sameDrive e.1 start = true ∧
      ∀ f ∈ e.2, sameDrive f start = true := by
    intro e he
    exact ⟨(hgood e he).1.same, fun f hf => ((hgood e he).2 f hf).same⟩
  have hmapnodup : (W.map
      (fun e => adjustedKeyStr start style decs label e.1)).Nodup := by
    have hkeynodup :
        ((dictKeys W).map (adjustedKeyStr start style decs label)).Nodup := by
      refine List.Nodup.map_on ?_ hnodup
      intro x hx y hy hxy
      by_contra hne
      have gx : GoodKey start x := by
        rcases List.mem_map.1 hx with ⟨e, he, hex⟩
        exact hex ▸ (hgood e he).1
      have gy : GoodKey start y := by
        rcases List.mem_map.1 hy with ⟨e, he, hey⟩
        exact hey ▸ (hgood e he).1
      exact adjustedKeyStr_inj hstyle gx gy hne hxy
    rw [show (fun (e : AbsPath × List AbsPath) =>
        adjustedKeyStr start style decs label e.1) =
      (adjustedKeyStr start style decs label) ∘ Prod.fst from rfl,
      ← List.map_map]
    exact hkeynodup
  obtain ⟨out, hout, hlen⟩ := adjustLoop_len start style decs strict label W []
    hall hmapnodup (by intro e he hmem; simp [dictKeys] at hmem)
  exact ⟨out, hout, by rw [hlen]; simp⟩

theorem adjust_paths_key_count_witness :
    WFfs [FSEntry.dir "sub" 0 [], FSEntry.file "f.txt" 1] ∧
    ∃ adj,
      adjust_paths
        (walk_directories [FSEntry.dir "sub" 0 [], FSEntry.file "f.txt" 1]
          ⟨"C:", ["base"]⟩ [] SortMode.sequence Collect.all none none none none)
        ⟨"C:", ["base"]⟩ PathStyle.full ⟨false, false, false, false⟩
        Collect.all true none = Except.ok adj ∧
      adj.length =
        (walk_directories [FSEntry.dir "sub" 0 [], FSEntry.file "f.txt" 1]
          ⟨"C:", ["base"]⟩ [] SortMode.sequence Collect.all none none
          none none).length :=
  ⟨WFfs.mk _ (by decide) (by decide)
      (by
        intro n mt cs hm
        simp at hm
        rw [hm.2.2]
        exact WFfs.mk [] (by decide) (by simp) (by simp)),
   adjust_paths_key_count [FSEntry.dir "sub" 0 [], FSEntry.file "f.txt" 1]
     ⟨"C:", ["base"]⟩ [] SortMode.sequence Collect.all none none none none
     PathStyle.full ⟨false, false, false, false⟩ true none
     (WFfs.mk _ (by decide) (by decide)
       (by
         intro n mt cs hm
         simp at hm
         rw [hm.2.2]
         exact WFfs.mk [] (by decide) (by simp) (by simp)))
     (Or.inl rfl)⟩

/-- Counterexample filesystem for claim C8: two sibling directories whose
names differ only by a leading dot. -/
def fs8 : List FSEntry :=
  [FSEntry.dir ".hidden" 0 [], FSEntry.dir "hidden" 0 []]

/-- Counterexample start path for claim C8. -/
def start8 : AbsPath := ⟨"C:", ["base"]⟩

/-- Counterexample walker configuration for claim C8. -/
def cfg8 : WalkCfg :=
  { exclude_patterns := [], sort_by := SortMode.sequence,
    collect := Collect.all, max_depth := none, prune_large_dirs := none }

/-- Absolute path of the `.hidden` subdirectory. -/
def p81 : AbsPath := ⟨"C:", ["base", ".hidden"]⟩

/-- Absolute path of the `hidden` subdirectory. -/
def p82 : AbsPath := ⟨"C:", ["base", "hidden"]⟩

/-- The decoration set of the C8 counterexample: `no-leader` only. -/
def decs8 : Decorations := ⟨false, false, false, true⟩

theorem walk8_eval : recurse_dir cfg8 fs8 start8 0 [] =
    [(start8, []), (p81, []), (p82, [])] := by
  have e1 : recurse_dir cfg8 [] p81 1 [(start8, [])] =
      [(start8, []), (p81, [])] := by
    rw [recurse_dir_eq]
    rw [if_neg (by decide : ¬ actionOf cfg8 p81 [] 1 = VisitAction.skip)]
    rw [if_neg (by decide : ¬ actionOf cfg8 p81 [] 1 = VisitAction.truncated)]
    rw [if_neg (by decide : ¬ actionOf cfg8 p81 [] 1 = VisitAction.truncated)]
    rw [show subdirsOf cfg8 p81 [] = [] from rfl]
    rw [List.foldl_nil]
    rfl
  have e2 : recurse_dir cfg8 [] p82 1 [(start8, []), (p81, [])] =
      [(start8, []), (p81, []), (p82, [])] := by
    rw [recurse_dir_eq]
    rw [if_neg (by decide : ¬ actionOf cfg8 p82 [] 1 = VisitAction.skip)]
    rw [if_neg (by decide : ¬ actionOf cfg8 p82 [] 1 = VisitAction.truncated)]
    rw [if_neg (by decide : ¬ actionOf cfg8 p82 [] 1 = VisitAction.truncated)]
    rw [show subdirsOf cfg8 p82 [] = [] from rfl]
    rw [List.foldl_nil]
    rfl
  rw [recurse_dir_eq]
  rw [if_neg (by decide : ¬ actionOf cfg8 start8 fs8 0 = VisitAction.skip)]
  rw [if_neg (by decide : ¬ actionOf cfg8 start8 fs8 0 = VisitAction.truncated)]
  rw [if_neg (by decide : ¬ actionOf cfg8 start8 fs8 0 = VisitAction.truncated)]
  rw [show subdirsOf cfg8 start8 fs8 =
    [((p81, 0), ([] : List FSEntry)), ((p82, 0), [])] from rfl]
  rw [show storeEntry cfg8 start8 []
      ((filesOf cfg8 start8 fs8).map (fun f => f.1)) = [(start8, [])] from rfl]
  simp only [List.foldl_cons, List.foldl_nil]
  rw [e1, e2]

/-- Claim C8 counterexample: with the `no-leader` decoration under the
`rel` style, one walk over the sibling directories `.hidden` and `hidden`
yields two distinct absolute directory keys that the path adjuster renders
to the same string `"hidden"`; the adjusted map has 2 entries while the
walker's map has 3, refuting "for any decoration set". -/
theorem rel_key_collision :
    p81 ∈ dictKeys (walk_directories fs8 start8 [] SortMode.sequence
      Collect.all none none none none) ∧
    p82 ∈ dictKeys (walk_directories fs8 start8 [] SortMode.sequence
      Collect.all none none none none) ∧
    p81 ≠ p82 ∧
    adjustDirKey start8 PathStyle.rel decs8 false none p81 =
      Except.ok "hidden" ∧
    adjustDirKey start8 PathStyle.rel decs8 false none p82 =
      Except.ok "hidden" ∧
    adjust_paths (walk_directories fs8 start8 [] SortMode.sequence
        Collect.all none none none none) start8 PathStyle.rel decs8
      Collect.all false none = Except.ok [("", []), ("hidden", [])] ∧
    (walk_directories fs8 start8 [] SortMode.sequence Collect.all
      none none none none).length = 3 := by
  have hW : walk_directories fs8 start8 [] SortMode.sequence Collect.all
      none none none none = [(start8, []), (p81, []), (p82, [])] := walk8_eval
  refine ⟨?_, ?_, ?_, ?_, ?_, ?_, ?_⟩
  · rw [hW]
    decide
  · rw [hW]
    decide
  · decide
  · rfl
  · rfl
  · rw [hW]
    rfl
  · rw [hW]
    rfl

/-! ## Claim C9: decoration of segment names in summary rendering -/

/-- Claim C9 counterexample: in summary rendering under the `rel-base`
path style with the `windows` decoration, a directory key whose segment
contains a forward slash is emitted bare (`"a/b"`), not decorated
(`"a\x5cb"`): the renderer skips `apply_decorations` on segment names
exactly when the style is `rel-base` (`src/listall.py` line 504). -/
theorem relbase_segment_undecorated :
    format_collected_items [("a/b", [])] FormatStyle.summary Collect.dirsOnly
      ⟨false, true, false, false⟩ PathStyle.relBase SortMode.nameMode 2 false
      = "a/b" ∧
    apply_decorations "a/b" ⟨false, true, false, false⟩ = "a\x5cb" ∧
    ("a/b" : String) ≠ "a\x5cb" := by
  refine ⟨by decide, by decide, by decide⟩

theorem mem_dictGet {fm : List (String × List String)} {k f : String}
    (h : f ∈ dictGet fm k) : ∃ e ∈ fm, f ∈ e.2 := by
  induction fm with
  | nil => cases h
  | cons e t ih =>
    rw [dictGet] at h
    by_cases hk : e.1 = k
    · rw [if_pos hk] at h
      exact ⟨e, List.mem_cons_self _ _, h⟩
    · rw [if_neg hk] at h
      obtain ⟨e2, he2, hf⟩ := ih h
      exact ⟨e2, List.mem_cons_of_mem _ he2, hf⟩

theorem getLastD_mem {l : List String} (h : l ≠ []) :
    l.getLast?.getD "" ∈ l := by
  cases l with
  | nil => exact absurd rfl h
  | cons a t =>
    cases hg : (a :: t).getLast? with
    | none =>
      exfalso
      have := List.getLast?_eq_none_iff.1 hg
      cases this
    | some x => exact List.mem_of_getLast?_eq_some hg

theorem mem_enumFrom_snd :
    ∀ (l : List α) (n : Nat) (x : Nat × α), x ∈ l.enumFrom n → x.2 ∈ l := by
  intro l
  induction l with
  | nil =>
    intro n x h
    cases h
  | cons a t ih =>
    intro n x h
    rw [List.enumFrom] at h
    rcases List.mem_cons.1 h with h | h
    · rw [h]
      exact List.mem_cons_self _ _
    · exact List.mem_cons_of_mem _ (ih (n + 1) x h)

theorem mem_enum_snd (l : List α) (x : Nat × α) (h : x ∈ l.enum) :
    x.2 ∈ l := mem_enumFrom_snd l 0 x h

/-- The name the renderer displays for one directory segment: bare under
`rel-base`, decorated otherwise (`src/listall.py` line 504). -/
def dispOf (cfg : RenderCfg) (name : String) : String :=
  if cfg.path_style = PathStyle.relBase then name
  else apply_decorations name cfg.decorations

/-- The per-child block of lines built inside `format_directory`'s
`items.map`, with the collection strategy as an explicit argument. -/
def blockOf (cfg : RenderCfg) (fm : List (String × List String))
    (fuel : Nat) (collectArg : Collect) (it : String × DTree)
    (cur : String) (level : Nat) : List String × Bool :=
  let ind := indentStr cfg level
  let name := it.1
  let sub := it.2
  let full_path := if cur = "" then name else ntJoin cur name
  let disp := dispOf cfg name
  match collectArg with
  | Collect.dirsOnly =>
      if (DTree.children sub).length ≠ 0 then
        ((ind ++ disp ++ ":\x7b") ::
          format_directory cfg fm fuel sub full_path (level + 1), true)
      else ([ind ++ disp], false)
  | Collect.filesOnly =>
      ((ind ++ "\x7b") :: (fileLinesFor cfg fm full_path level ++
        format_directory cfg fm fuel sub full_path (level + 1)), true)
  | Collect.dirs1stLastFile =>
      let has_sub := (DTree.children sub).length ≠ 0
      let openBrace := has_sub ∨ cur ≠ ""
      let headLine := if openBrace then ind ++ disp ++ ":\x7b"
                      else ind ++ disp
      let flLines :=
        if dictContains fm full_path then
          match dictGet fm full_path with
          | [] => []
          | f0 :: frest =>
              (findentStr cfg level ++
                apply_decorations (baseNameStr f0) cfg.decorations) ::
              (if frest.length > 0 then
                [findentStr cfg level ++ apply_decorations
                  (baseNameStr ((f0 :: frest).getLast?.getD ""))
                  cfg.decorations]
               else [])
        else []
      let recLines := if has_sub then
          format_directory cfg fm fuel sub full_path (level + 1) else []
      (headLine :: (flLines ++ recLines), openBrace)
  | Collect.all =>
      ((ind ++ disp ++ ":\x7b") :: (fileLinesFor cfg fm full_path level ++
        (if (DTree.children sub).length ≠ 0 then
          format_directory cfg fm fuel sub full_path (level + 1)
         else [])),
       true)

theorem format_directory_succ (cfg : RenderCfg)
    (fm : List (String × List String)) (fuel : Nat) (t : DTree)
    (cur : String) (level : Nat) :
    format_directory cfg fm (fuel + 1) t cur level =
      (((sortedItems cfg.sort_by (DTree.children t)).map
        (fun it => blockOf cfg fm fuel cfg.collect it cur level)).enum.map
        (fun ib =>
          if ib.2.2 then
            if cfg.compact_braces ∧ ib.1 =
                (sortedItems cfg.sort_by (DTree.children t)).length - 1 then
              appendToLast ib.2.1 "\x7d"
            else ib.2.1 ++ [indentStr cfg level ++ "\x7d"]
          else ib.2.1)).flatten := rfl

/-- The possible shapes of a line of the summary renderer: an opening or
closing brace line, a decorated file basename line for a file recorded in
the dictionary, or a directory segment line displaying
`dispOf` of a bare segment name of the tree. -/
def lineShape (cfg : RenderCfg) (fm : List (String × List String))
    (names : List String) (s : String) : Prop :=
  (∃ lvl, s = indentStr cfg lvl ++ "\x7b") ∨
  (∃ lvl, s = indentStr cfg lvl ++ "\x7d") ∨
  (∃ lvl f, (∃ e ∈ fm, f ∈ e.2) ∧
    s = findentStr cfg lvl ++
      apply_decorations (baseNameStr f) cfg.decorations) ∨
  (∃ lvl name, name ∈ names ∧
    (s = indentStr cfg lvl ++ dispOf cfg name ∨
     s = indentStr cfg lvl ++ dispOf cfg name ++ ":\x7b"))

theorem lineShape_mono {cfg : RenderCfg} {fm : List (String × List String)}
    {n1 n2 : List String} (h : ∀ x ∈ n1, x ∈ n2) {s : String}
    (hs : lineShape cfg fm n1 s) : lineShape cfg fm n2 s := by
  rcases hs with h1 | h2 | h3 | ⟨lvl, name, hn, hforms⟩
  · exact Or.inl h1
  · exact Or.inr (Or.inl h2)
  · exact Or.inr (Or.inr (Or.inl h3))
  · exact Or.inr (Or.inr (Or.inr ⟨lvl, name, h name hn, hforms⟩))

theorem blockOf_shape (cfg : RenderCfg) (fm : List (String × List String))
    (fuel : Nat) (collectArg : Collect) (it : String × DTree) (cur : String)
    (level : Nat) (s : String) (names : List String)
    (hname : it.1 ∈ names)
    (hsub : ∀ x ∈ treeNamesF fuel it.2, x ∈ names)
    (hrec : ∀ cur2 s2,
      s2 ∈ format_directory cfg fm fuel it.2 cur2 (level + 1) →
      lineShape cfg fm (treeNamesF fuel it.2) s2)
    (h : s ∈ (blockOf cfg fm fuel collectArg it cur level).1) :
    lineShape cfg fm names s := by
  cases collectArg with
  | dirsOnly =>
    simp only [blockOf] at h
    by_cases hs0 : (DTree.children it.2).length ≠ 0
    · rw [if_pos hs0] at h
      rcases List.mem_cons.1 h with hc | hc
      · exact Or.inr (Or.inr (Or.inr ⟨level, it.1, hname, Or.inr hc⟩))
      · exact lineShape_mono hsub (hrec _ s hc)
    · rw [if_neg hs0] at h
      rcases List.mem_singleton.1 h with hc
      exact Or.inr (Or.inr (Or.inr ⟨level, it.1, hname, Or.inl hc⟩))
  | filesOnly =>
    simp only [blockOf] at h
    rcases List.mem_cons.1 h with hc | hc
    · exact Or.inl ⟨level, hc⟩
    · rcases List.mem_append.1 hc with hm | hm
      · rw [fileLinesFor] at hm
        by_cases hct :
            dictContains fm (if cur = "" then it.1 else ntJoin cur it.1) = true
        · rw [if_pos hct] at hm
          rcases List.mem_map.1 hm with ⟨f, hf, hfe⟩
          exact Or.inr (Or.inr (Or.inl ⟨level, f, mem_dictGet hf, hfe.symm⟩))
        · rw [if_neg hct] at hm
          cases hm
      · exact lineShape_mono hsub (hrec _ s hm)
  | dirs1stLastFile =>
    simp only [blockOf] at h
    rcases List.mem_cons.1 h with hc | hc
    · by_cases hob : ((DTree.children it.2).length ≠ 0 ∨ cur ≠ "")
      · rw [if_pos hob] at hc
        exact Or.inr (Or.inr (Or.inr ⟨level, it.1, hname, Or.inr hc⟩))
      · rw [if_neg hob] at hc
        exact Or.inr (Or.inr (Or.inr ⟨level, it.1, hname, Or.inl hc⟩))
    · rcases List.mem_append.1 hc with hm | hm
      · by_cases hct :
            dictContains fm (if cur = "" then it.1 else ntJoin cur it.1) = true
        · rw [if_pos hct] at hm
          cases hdg :
              dictGet fm (if cur = "" then it.1 else ntJoin cur it.1) with
          | nil =>
            rw [hdg] at hm
            cases hm
          | cons f0 frest =>
            rw [hdg] at hm
            rcases List.mem_cons.1 hm with hm2 | hm2
            · refine Or.inr (Or.inr (Or.inl ⟨level, f0, ?_, hm2⟩))
              exact mem_dictGet (by rw [hdg]; exact List.mem_cons_self _ _)
            · by_cases hfr : frest.length > 0
              · rw [if_pos hfr] at hm2
                rcases List.mem_singleton.1 hm2 with hm3
                refine Or.inr (Or.inr (Or.inl ⟨level, _, ?_, hm3⟩))
                exact mem_dictGet
                  (by rw [hdg]; exact getLastD_mem (by simp))
              · rw [if_neg hfr] at hm2
                cases hm2
        · rw [if_neg hct] at hm
          cases hm
      · by_cases hhs : (DTree.children it.2).length ≠ 0
        · rw [if_pos hhs] at hm
          exact lineShape_mono hsub (hrec _ s hm)
        · rw [if_neg hhs] at hm
          cases hm
  | all =>
    simp only [blockOf] at h
    rcases List.mem_cons.1 h with hc | hc
    · exact Or.inr (Or.inr (Or.inr ⟨level, it.1, hname, Or.inr hc⟩))
    · rcases List.mem_append.1 hc with hm | hm
      · rw [fileLinesFor] at hm
        by_cases hct :
            dictContains fm (if cur = "" then it.1 else ntJoin cur it.1) = true
        · rw [if_pos hct] at hm
          rcases List.mem_map.1 hm with ⟨f, hf, hfe⟩
          exact Or.inr (Or.inr (Or.inl ⟨level, f, mem_dictGet hf, hfe.symm⟩))
        · rw [if_neg hct] at hm
          cases hm
      · by_cases hhs : (DTree.children it.2).length ≠ 0
        · rw [if_pos hhs] at hm
          exact lineShape_mono hsub (hrec _ s hm)
        · rw [if_neg hhs] at hm
          cases hm

theorem format_directory_shape (cfg : RenderCfg)
    (fm : List (String × List String)) (hcb : cfg.compact_braces = false) :
    ∀ (fuel : Nat) (t : DTree) (cur : String) (level : Nat) (s : String),
      s ∈ format_directory cfg fm fuel t cur level →
      lineShape cfg fm (treeNamesF fuel t) s := by
  intro fuel
  induction fuel with
  | zero =>
    intro t cur level s h
    rw [format_directory] at h
    cases h
  | succ fuel ih =>
    intro t cur level s h
    cases t with
    | node cs =>
      rw [format_directory_succ] at h
      rcases List.mem_flatten.1 h with ⟨bl, hbl, hsbl⟩
      rcases List.mem_map.1 hbl with ⟨ib, hib, hgib⟩
      have hib2 := mem_enum_snd _ _ hib
      rcases List.mem_map.1 hib2 with ⟨it, hit, hbf⟩
      have hitcs : it ∈ cs := (stableSortBy_perm _ _).mem_iff.1 hit
      rw [← hgib] at hsbl
      simp only [hcb, Bool.false_eq_true, false_and, if_false] at hsbl
      have hsplit : s ∈ ib.2.1 ∨ s = indentStr cfg level ++ "\x7d" := by
        by_cases hflag : ib.2.2 = true
        · rw [if_pos hflag] at hsbl
          rcases List.mem_append.1 hsbl with hm | hm
          · exact Or.inl hm
          · exact Or.inr (List.mem_singleton.1 hm)
        · rw [if_neg hflag] at hsbl
          exact Or.inl hsbl
      rcases hsplit with hm | hseq
      · rw [← hbf] at hm
        exact blockOf_shape cfg fm fuel cfg.collect it cur level s _
          (treeNamesF_mem_key hitcs)
          (fun x hx => treeNamesF_mem_sub hitcs hx)
          (fun cur2 s2 hs2 => ih it.2 cur2 (level + 1) s2 hs2) hm
      · exact Or.inr (Or.inl ⟨level, hseq⟩)

/-- Claim C9 (amended): every line of the summary renderer (without brace
compaction) is an opening or closing brace line, a decorated file basename
line for a file of the dictionary, or a directory segment line displaying
`dispOf` of a bare segment name: the bare name decorated with
`apply_decorations` for every path style except `rel-base`, which emits
the bare undecorated name (`src/listall.py` line 504).  The original
claim's "for every path style" fails for `rel-base`: see the
counterexample. -/
theorem summary_segment_decoration (collected : List (String × List String))
    (collect : Collect) (decs : Decorations) (style : PathStyle)
    (sortBy : SortMode) (indent : Int) (s : String)
    (h : s ∈ format_directory
      { collect := collect, decorations := decs, path_style := style,
        sort_by := sortBy, indent_size := indent, compact_braces := false }
      collected
      ((collected.map (fun e => (splitOnSep e.1).length)).foldl (· + ·) 0 + 1)
      (build_directory_tree collected) "" 0) :
    lineShape
      { collect := collect, decorations := decs, path_style := style,
        sort_by := sortBy, indent_size := indent, compact_braces := false }
      collected
      (treeNamesF
        ((collected.map (fun e => (splitOnSep e.1).length)).foldl (· + ·) 0 + 1)
        (build_directory_tree collected)) s :=
  format_directory_shape _ _ rfl _ _ _ _ s h

theorem summary_segment_decoration_witness :
    "d" ∈ format_directory
      { collect := Collect.dirsOnly,
        decorations := ⟨false, false, false, false⟩,
        path_style := PathStyle.full, sort_by := SortMode.nameMode,
        indent_size := 2, compact_braces := false }
      [("d", [])]
      (([("d", ([] : List String))].map
        (fun e => (splitOnSep e.1).length)).foldl (· + ·) 0 + 1)
      (build_directory_tree [("d", [])]) "" 0 ∧
    lineShape
      { collect := Collect.dirsOnly,
        decorations := ⟨false, false, false, false⟩,
        path_style := PathStyle.full, sort_by := SortMode.nameMode,
        indent_size := 2, compact_braces := false }
      [("d", [])]
      (treeNamesF
        (([("d", ([] : List String))].map
          (fun e => (splitOnSep e.1).length)).foldl (· + ·) 0 + 1)
        (build_directory_tree [("d", [])])) "d" :=
  ⟨by decide,
   summary_segment_decoration [("d", [])] Collect.dirsOnly
     ⟨false, false, false, false⟩ PathStyle.full SortMode.nameMode 2 "d"
     (by decide)⟩

end Listall
